import Mathlib

/-!
Verification development for the castep-model-core repository: a shallow
embedding, in Lean 4, of the MSI text parser (nom combinators, the
order-independent structural state machine, the semantic extractors), the
atom-table builder, and the lattice geometry engine, together with theorems
settling the specification claims about them.

Floating-point values of the source are modelled by exact rational
arithmetic (`ℚ`): every claim treated here is about control flow, about
exact dataflow (which branch is taken, which error is produced, how ids and
columns are assembled), or about algebraic identities that hold exactly;
rounding is never the issue at stake.  Where the source calls a fallible
operation and `unwrap`s it (a Rust panic on failure), the embedding returns
an `Option` and `none` models the panic.
-/

set_option maxRecDepth 8192

namespace CastepModelCore

/-! ## Rational 3-vectors and 3×3 matrices (nalgebra `Vector3<f64>` / `Matrix3<f64>`) -/

/-- Vec3 models nalgebra's `Vector3<f64>` (and `Point3<f64>`) in exact arithmetic. -/
structure Vec3 where
  x : ℚ
  y : ℚ
  z : ℚ
deriving DecidableEq, Repr

/-- Vec3.dot models `Vector3::dot`. -/
def Vec3.dot (u v : Vec3) : ℚ := u.x * v.x + u.y * v.y + u.z * v.z

/-- Vec3.cross models `Vector3::cross`. -/
def Vec3.cross (u v : Vec3) : Vec3 :=
  ⟨u.y * v.z - u.z * v.y, u.z * v.x - u.x * v.z, u.x * v.y - u.y * v.x⟩

/-- Vec3.normSq is the squared euclidean norm: `v.norm()` of the source is its
(irrational) square root, so the embedding works with the square. -/
def Vec3.normSq (v : Vec3) : ℚ := v.dot v

/-- Mat3 models nalgebra's `Matrix3<f64>` (row-major fields `mij` = row i, column j),
in exact arithmetic. -/
structure Mat3 where
  m11 : ℚ
  m12 : ℚ
  m13 : ℚ
  m21 : ℚ
  m22 : ℚ
  m23 : ℚ
  m31 : ℚ
  m32 : ℚ
  m33 : ℚ
deriving DecidableEq, Repr

/-- Mat3.fromColumns models `Matrix3::from_columns(&[a, b, c])`. -/
def Mat3.fromColumns (a b c : Vec3) : Mat3 :=
  ⟨a.x, b.x, c.x, a.y, b.y, c.y, a.z, b.z, c.z⟩

/-- Mat3.col0 is `m.column(0)`. -/
def Mat3.col0 (m : Mat3) : Vec3 := ⟨m.m11, m.m21, m.m31⟩

/-- Mat3.col1 is `m.column(1)`. -/
def Mat3.col1 (m : Mat3) : Vec3 := ⟨m.m12, m.m22, m.m32⟩

/-- Mat3.col2 is `m.column(2)`. -/
def Mat3.col2 (m : Mat3) : Vec3 := ⟨m.m13, m.m23, m.m33⟩

/-- Mat3.det is the cofactor expansion along the first row, exactly the formula
nalgebra's `Matrix3::determinant` uses. -/
def Mat3.det (m : Mat3) : ℚ :=
  m.m11 * (m.m22 * m.m33 - m.m23 * m.m32)
    - m.m12 * (m.m21 * m.m33 - m.m23 * m.m31)
    + m.m13 * (m.m21 * m.m32 - m.m22 * m.m31)

/-- Mat3.tryInverse models nalgebra's `Matrix3::try_inverse`: it computes the
determinant and returns `None` when the determinant is zero, otherwise the
adjugate divided by the determinant.  (In exact arithmetic "determinant equal
to zero" is exactly nalgebra's `det.is_zero()` test.) -/
def Mat3.tryInverse (m : Mat3) : Option Mat3 :=
  let d := m.det
  if d = 0 then none
  else
    some
      ⟨(m.m22 * m.m33 - m.m23 * m.m32) / d, (m.m13 * m.m32 - m.m12 * m.m33) / d,
        (m.m12 * m.m23 - m.m13 * m.m22) / d, (m.m23 * m.m31 - m.m21 * m.m33) / d,
        (m.m11 * m.m33 - m.m13 * m.m31) / d, (m.m13 * m.m21 - m.m11 * m.m23) / d,
        (m.m21 * m.m32 - m.m22 * m.m31) / d, (m.m12 * m.m31 - m.m11 * m.m32) / d,
        (m.m11 * m.m22 - m.m12 * m.m21) / d⟩

/-! ## Geometry engine: `LatticeVectors::fractional_coord_matrix` (src/lattice/mod.rs 130–156)

The source computes, over `f64`,

  let len_a = vec_a.norm(); ... let (alpha, beta, gamma) =
    (vec_b.angle(&vec_c), vec_a.angle(&vec_c), vec_a.angle(&vec_b));
  let vol = vec_a.dot(&vec_b.cross(&vec_c));
  let to_cart = Matrix3::new(
      len_a, len_b * gamma.cos(), len_c * beta.cos(),
      0.0,   len_b * gamma.sin(), len_c * (alpha.cos() - beta.cos() * gamma.cos()) / gamma.sin(),
      0.0,   0.0,                 vol / (len_a * len_b * gamma.sin()));
  to_cart.try_inverse().unwrap()

In exact arithmetic `cos (u.angle v) = u.dot v / (‖u‖ * ‖v‖)` and
`sin (u.angle v) = ‖u × v‖ / (‖u‖ * ‖v‖)` (the angle lies in [0, π]), so each
entry simplifies to a rational expression in the dot products and the two
square roots `‖a‖` and `‖a × b‖`:

  len_a                  = ‖a‖
  len_b * cos γ          = (a·b) / ‖a‖
  len_c * cos β          = (a·c) / ‖a‖
  len_b * sin γ          = ‖a×b‖ / ‖a‖
  len_c * (cos α − cos β cos γ) / sin γ = ((a·a)(b·c) − (a·c)(a·b)) / (‖a‖‖a×b‖)
  vol / (len_a len_b sin γ)             = vol / ‖a×b‖

The embedding therefore takes the two square roots as extra parameters
`la = ‖a‖` and `lab = ‖a × b‖`, characterised in the theorems by
`la^2 = normSq a` and `lab^2 = normSq (a × b)` with `la, lab > 0`. -/

/-- to_cart is the cartesian-construction matrix of
`fractional_coord_matrix`, with every `f64` trigonometric subexpression
replaced by its exact value as derived above (`la` stands for `‖a‖`, `lab`
for `‖a × b‖`). -/
def to_cart (a b c : Vec3) (la lab : ℚ) : Mat3 :=
  ⟨la, a.dot b / la, a.dot c / la,
    0, lab / la, (a.dot a * b.dot c - a.dot c * (a.dot b)) / (la * lab),
    0, 0, a.dot (b.cross c) / lab⟩

/-- fractional_coord_matrix embeds `LatticeVectors::fractional_coord_matrix`
(src/lattice/mod.rs lines 130–156).  The source ends in
`to_cart.try_inverse().unwrap()`: the `unwrap` of a failed inversion is a
Rust panic, modelled here by `none`.  The lattice basis is given by the three
column vectors `a b c` of the stored matrix, and `la`, `lab` are the two
square roots as in `to_cart`. -/
def fractional_coord_matrix (a b c : Vec3) (la lab : ℚ) : Option Mat3 :=
  (to_cart a b c la lab).tryInverse

/-! ## Geometry engine: canonical-alignment rotation steps

MSI→CELL (src/model_type/cell.rs lines 70–81):

    let x_axis: Vector3<f64> = Vector::x();
    let a_vec = ...column(0);
    let a_to_x_angle = a_vec.angle(&x_axis);
    let rot_axis = a_vec.cross(&x_axis).normalize();
    let rot_quatd = UnitQuaternion::new(rot_axis * a_to_x_angle);
    msi_model.as_mut().rotate(&rot_quatd);

There is no conditional: the cross product is normalized and the rotation is
applied unconditionally.

CELL→MSI (src/model_type/msi.rs lines 121–133):

    let b_to_y_angle = b_vec.angle(&y_axis);
    if b_to_y_angle != 0.0 {
        let rot_axis = b_vec.cross(&y_axis).normalize();
        let rot_quatd = UnitQuaternion::new(rot_axis * b_to_y_angle);
        msi_model.rotate(&rot_quatd);
    }

The embedding records which branch runs and with which (unnormalized) cross
product the `normalize` call is made; the rotation itself (an irrational
quaternion action) is not needed by any claim.  `u.angle(&v)` is
`acos(u·v/(‖u‖‖v‖))`, which is zero exactly when `u·v ≥ 0` and
`(u·v)² = ‖u‖²‖v‖²`; that is the exact-arithmetic content of the source's
`b_to_y_angle != 0.0` test for nonzero vectors. -/

/-- RotOutcome records the rotation step of a dialect conversion: either the
step was skipped, or `normalize` was called on the recorded cross-product
vector and the resulting axis-angle rotation applied to the whole model. -/
inductive RotOutcome where
  /-- skipped: the guard found the angle already zero and did nothing. -/
  | skipped : RotOutcome
  /-- rotatedAbout w: the code computed `w.normalize()` as the rotation axis
  (with `w` the cross product of the current vector and the target axis) and
  applied the rotation. -/
  | rotatedAbout : Vec3 → RotOutcome
deriving DecidableEq, Repr

/-- angleIsZero u v decides, in exact arithmetic, whether nalgebra's
`u.angle(&v)` is `0.0`: the angle `acos(u·v/(‖u‖‖v‖))` is zero iff the cosine
is one, i.e. iff `u·v ≥ 0` and `(u·v)² = ‖u‖² ‖v‖²`. -/
def angleIsZero (u v : Vec3) : Bool :=
  if 0 ≤ u.dot v ∧ u.dot v * u.dot v = u.normSq * v.normSq then true else false

/-- x_axis is `Vector::x()`. -/
def x_axis : Vec3 := ⟨1, 0, 0⟩

/-- y_axis is `Vector::y()`. -/
def y_axis : Vec3 := ⟨0, 1, 0⟩

/-- cellFromMsiRotation embeds the rotation step of
`From<LatticeModel<MsiModel>> for LatticeModel<CellModel>`
(src/model_type/cell.rs lines 70–81): `rot_axis = a_vec.cross(&x_axis).normalize()`
is computed and the rotation applied with no guard on the angle. -/
def cellFromMsiRotation (a_vec : Vec3) : RotOutcome :=
  RotOutcome.rotatedAbout (a_vec.cross x_axis)

/-- msiFromCellRotation embeds the rotation step of
`From<LatticeModel<CellModel>> for LatticeModel<MsiModel>`
(src/model_type/msi.rs lines 121–133): the rotation is applied only when
`b_to_y_angle != 0.0`. -/
def msiFromCellRotation (b_vec : Vec3) : RotOutcome :=
  if angleIsZero b_vec y_axis then RotOutcome.skipped
  else RotOutcome.rotatedAbout (b_vec.cross y_axis)

/-- normalizesZeroVector o holds when the step called `normalize()` on a
zero-length vector.  nalgebra's `normalize` divides every component by the
euclidean norm; on the zero vector this is `0.0 / 0.0 = NaN` in every
component, which the subsequent `UnitQuaternion::new` and `rotate` propagate
into every coordinate of the model (IEEE-754: `NaN * 0.0 = NaN`, and the
`nn <= eps * eps` guard inside `Quaternion::exp` is false for NaN). -/
def normalizesZeroVector : RotOutcome → Bool
  | RotOutcome.skipped => false
  | RotOutcome.rotatedAbout w => if w.normSq = 0 then true else false

/-! ## Lattice model, merge and lookup (src/lattice/mod.rs) -/

/-- InvalidIndex models the unit error struct of src/error.rs. -/
inductive InvalidIndex where
  | mk : InvalidIndex
deriving DecidableEq, Repr

/-- RAtom models `Atom<T>` (src/atom/mod.rs): element symbol, atomic number
(`u8`), cartesian coordinate, optional fractional coordinate, and the `u32`
atom id. -/
structure RAtom where
  element_symbol : String
  atomic_number : ℕ
  xyz : Vec3
  fractional_xyz : Option Vec3
  atom_id : ℕ
deriving DecidableEq, Repr

/-- U32_MOD is 2^32: `u32` arithmetic wraps modulo this (release profile). -/
def U32_MOD : ℕ := 4294967296

/-- USIZE_MOD is 2^64 for a 64-bit target: `usize` arithmetic wraps modulo
this in the release profile. -/
def USIZE_MOD : ℕ := 18446744073709551616

/-- LatticeModel models `LatticeModel<T>` (src/lattice/mod.rs lines 7–12):
optional lattice vectors, a vector of atoms, and the dialect marker value.
The lattice-vector payload is kept abstract in `L` (claims C3, C9 and C10
never inspect it) and the marker in `T`. -/
structure LatticeModel (L T : Type) where
  lattice_vectors : Option L
  atoms : List RAtom
  model_type : T

/-- LatticeModel.add embeds `impl Add for LatticeModel<T>` (src/lattice/mod.rs
lines 193–218).  The source takes `last_number_id = self.atoms().len() as u32`,
then for each `rhs` atom sets `atom_id = atom.atom_id() + last_number_id` and
pushes it onto `self.atoms`; the result keeps `self`'s `lattice_vectors` and
`model_type`.  `as u32` and the `u32` addition wrap modulo 2^32. -/
def LatticeModel.add {L T : Type} (self rhs : LatticeModel L T) : LatticeModel L T :=
  let last_number_id := self.atoms.length % U32_MOD
  { lattice_vectors := self.lattice_vectors
    atoms :=
      self.atoms ++
        rhs.atoms.map (fun atom => { atom with atom_id := (atom.atom_id + last_number_id) % U32_MOD })
    model_type := self.model_type }

/-- LatticeModel.get_atom_by_id embeds `LatticeModel::get_atom_by_id`
(src/lattice/mod.rs lines 45–47):
`self.atoms().get(atom_id as usize - 1).ok_or(InvalidIndex)`.
The `usize` subtraction wraps modulo 2^64 in the release profile (for
`atom_id = 0` the index becomes `2^64 - 1`, far out of bounds). -/
def LatticeModel.get_atom_by_id {L T : Type} (self : LatticeModel L T) (atom_id : ℕ) :
    Except InvalidIndex RAtom :=
  match self.atoms.get? ((atom_id + (USIZE_MOD - 1)) % USIZE_MOD) with
  | some a => Except.ok a
  | none => Except.error InvalidIndex.mk

/-- LatticeModel.get_mut_atom_by_id embeds the lookup performed by
`LatticeModel::get_mut_atom_by_id` (src/lattice/mod.rs lines 48–52); the
bounds logic is identical to the shared accessor
(`get_mut(atom_id as usize - 1).ok_or(InvalidIndex)`), only the reference is
mutable. -/
def LatticeModel.get_mut_atom_by_id {L T : Type} (self : LatticeModel L T) (atom_id : ℕ) :
    Except InvalidIndex RAtom :=
  match self.atoms.get? ((atom_id + (USIZE_MOD - 1)) % USIZE_MOD) with
  | some a => Except.ok a
  | none => Except.error InvalidIndex.mk

/-! ## Atom table builder (src/atom/atom_builder.rs) -/

/-- AtomCollectionBuildingError models the error enum of
src/atom/atom_builder.rs lines 29–33. -/
inductive AtomCollectionBuildingError where
  /-- InconsistentSize carries the supplied column's length (`curr`) and the
  declared atom count (`expected`). -/
  | InconsistentSize : (curr : ℕ) → (expected : ℕ) → AtomCollectionBuildingError
  /-- MissingField names the column that was never supplied. -/
  | MissingField : (missed : String) → AtomCollectionBuildingError
deriving DecidableEq, Repr

/-- AtomCollection models the structure-of-arrays atom table
(src/atom/mod.rs lines 72–82). -/
structure AtomCollection where
  element_symbols : List String
  atomic_nums : List ℕ
  xyz_coords : List Vec3
  fractional_xyz : List (Option Vec3)
  atom_ids : List ℕ
  size : ℕ
deriving DecidableEq, Repr

/-- AtomCollectionBuilder models `AtomCollectionBuilder<T, S>`
(src/atom/atom_builder.rs lines 14–27): every column is optional until
supplied, `size` is the declared atom count.  The phantom typestate marker is
not needed: `finish` is the only way to reach `build` below. -/
structure AtomCollectionBuilder where
  element_symbols : Option (List String)
  atomic_nums : Option (List ℕ)
  xyz_coords : Option (List Vec3)
  fractional_xyz : Option (List (Option Vec3))
  atom_ids : Option (List ℕ)
  size : ℕ
deriving DecidableEq, Repr

/-- AtomCollectionBuilder.new models `AtomCollectionBuilder::new(size)`
(src/atom/atom_builder.rs lines 51–62). -/
def AtomCollectionBuilder.new (size : ℕ) : AtomCollectionBuilder :=
  ⟨none, none, none, none, none, size⟩

/-- with_element_symbols models `AtomCollectionBuilder::with_element_symbols`
(src/atom/atom_builder.rs lines 69–83): `Ordering::Equal` on
`element_symbols.len().cmp(&self.size)` accepts, anything else errors with
the current and expected lengths. -/
def AtomCollectionBuilder.with_element_symbols (self : AtomCollectionBuilder)
    (element_symbols : List String) :
    Except AtomCollectionBuildingError AtomCollectionBuilder :=
  if element_symbols.length = self.size then
    Except.ok { self with element_symbols := some element_symbols }
  else
    Except.error (AtomCollectionBuildingError.InconsistentSize element_symbols.length self.size)

/-- with_atomic_nums models `AtomCollectionBuilder::with_atomic_nums`
(src/atom/atom_builder.rs lines 90–104). -/
def AtomCollectionBuilder.with_atomic_nums (self : AtomCollectionBuilder)
    (atomic_nums : List ℕ) :
    Except AtomCollectionBuildingError AtomCollectionBuilder :=
  if atomic_nums.length = self.size then
    Except.ok { self with atomic_nums := some atomic_nums }
  else
    Except.error (AtomCollectionBuildingError.InconsistentSize atomic_nums.length self.size)

/-- with_xyz_coords models `AtomCollectionBuilder::with_xyz_coords`
(src/atom/atom_builder.rs lines 111–125). -/
def AtomCollectionBuilder.with_xyz_coords (self : AtomCollectionBuilder)
    (xyz_coords : List Vec3) :
    Except AtomCollectionBuildingError AtomCollectionBuilder :=
  if xyz_coords.length = self.size then
    Except.ok { self with xyz_coords := some xyz_coords }
  else
    Except.error (AtomCollectionBuildingError.InconsistentSize xyz_coords.length self.size)

/-- with_fractional_xyz models `AtomCollectionBuilder::with_fractional_xyz`
(src/atom/atom_builder.rs lines 132–146). -/
def AtomCollectionBuilder.with_fractional_xyz (self : AtomCollectionBuilder)
    (fractional_xyz : List (Option Vec3)) :
    Except AtomCollectionBuildingError AtomCollectionBuilder :=
  if fractional_xyz.length = self.size then
    Except.ok { self with fractional_xyz := some fractional_xyz }
  else
    Except.error (AtomCollectionBuildingError.InconsistentSize fractional_xyz.length self.size)

/-- with_atom_ids models `AtomCollectionBuilder::with_atom_ids`
(src/atom/atom_builder.rs lines 153–164). -/
def AtomCollectionBuilder.with_atom_ids (self : AtomCollectionBuilder)
    (atom_ids : List ℕ) :
    Except AtomCollectionBuildingError AtomCollectionBuilder :=
  if atom_ids.length = self.size then
    Except.ok { self with atom_ids := some atom_ids }
  else
    Except.error (AtomCollectionBuildingError.InconsistentSize atom_ids.length self.size)

/-- finish models `AtomCollectionBuilder::finish` (src/atom/atom_builder.rs
lines 165–211): it checks the five columns in the source's order
(`atomic_nums`, `element_symbols`, `xyz_coords`, `fractional_xyz`,
`atom_ids`), errors with `MissingField` naming the first absent one, and on
success re-packages the same fields (the typestate turns `Ready`). -/
def AtomCollectionBuilder.finish (self : AtomCollectionBuilder) :
    Except AtomCollectionBuildingError AtomCollectionBuilder :=
  if self.atomic_nums.isNone then
    Except.error (AtomCollectionBuildingError.MissingField "atomic_nums")
  else if self.element_symbols.isNone then
    Except.error (AtomCollectionBuildingError.MissingField "element_symbols")
  else if self.xyz_coords.isNone then
    Except.error (AtomCollectionBuildingError.MissingField "xyz_coords")
  else if self.fractional_xyz.isNone then
    Except.error (AtomCollectionBuildingError.MissingField "fractional_xyz")
  else if self.atom_ids.isNone then
    Except.error (AtomCollectionBuildingError.MissingField "atom_ids")
  else
    Except.ok self

/-- build models `AtomCollectionBuilder::<T, Ready>::build`
(src/atom/atom_builder.rs lines 214–226): each column is unwrapped.  It is
only ever reached through a successful `finish`, which guarantees every
column is present; `none` models the impossible unwrap panic. -/
def AtomCollectionBuilder.build (self : AtomCollectionBuilder) : Option AtomCollection :=
  match self.element_symbols, self.atomic_nums, self.xyz_coords, self.fractional_xyz,
      self.atom_ids with
  | some es, some an, some xyz, some frac, some ids =>
    some ⟨es, an, xyz, frac, ids, self.size⟩
  | _, _, _, _, _ => none

/-- ColumnsSized is the invariant maintained by the staged construction:
every column that has been supplied has the declared length.  `new`
establishes it and every setter preserves it. -/
def AtomCollectionBuilder.ColumnsSized (b : AtomCollectionBuilder) : Prop :=
  (∀ v, b.element_symbols = some v → v.length = b.size) ∧
    (∀ v, b.atomic_nums = some v → v.length = b.size) ∧
    (∀ v, b.xyz_coords = some v → v.length = b.size) ∧
    (∀ v, b.fractional_xyz = some v → v.length = b.size) ∧
    (∀ v, b.atom_ids = some v → v.length = b.size)

/-- defaultAtom is an arbitrary atom used only as the `List.getD` default in
statements about in-bounds lookups. -/
def defaultAtom : RAtom := ⟨"", 0, ⟨0, 0, 0⟩, none, 0⟩

/-- columnIsAbsent b name holds when the builder column called `name` (the
string carried by a `MissingField` error) was never supplied. -/
def columnIsAbsent (b : AtomCollectionBuilder) (name : String) : Prop :=
  (name = "atomic_nums" ∧ b.atomic_nums = none) ∨
    (name = "element_symbols" ∧ b.element_symbols = none) ∨
    (name = "xyz_coords" ∧ b.xyz_coords = none) ∨
    (name = "fractional_xyz" ∧ b.fractional_xyz = none) ∨
    (name = "atom_ids" ∧ b.atom_ids = none)

/-- exampleSingleAtomModel id is a single-atom model (one hydrogen atom at the
origin carrying the given atom id), used by the concrete merge scenario. -/
def exampleSingleAtomModel (id : ℕ) : LatticeModel Unit Unit :=
  ⟨none, [⟨"H", 1, ⟨0, 0, 0⟩, none, id⟩], ()⟩

/-! ## nom combinators

The parser layer of the source is written with nom over `&str`.  The
embedding works over `List Char`: a parser takes the input and returns
`none` for nom's `Err` (which consumes nothing) or `some (rest, output)`
for `Ok((rest, output))`.  Each combinator below mirrors the nom combinator
of the same name as used by src/parser. -/

/-- NomParser is the shape of an embedded `fn(&str) -> IResult<&str, T>`. -/
def NomParser (α : Type) : Type := List Char → Option (List Char × α)

/-- startsWithL pat s is true when `s` begins with `pat`. -/
def startsWithL : List Char → List Char → Bool
  | [], _ => true
  | _ :: _, [] => false
  | p :: ps, c :: cs => p == c && startsWithL ps cs

/-- ptag models nom's `tag`: match the literal `t` at the front. -/
def ptag (t : List Char) : NomParser (List Char) := fun input =>
  if startsWithL t input then some (input.drop t.length, t) else none

/-- take_until models nom's complete `take_until`: consume (and output)
everything before the first occurrence of `pat`, leaving the occurrence in
the remaining input; fail when `pat` never occurs. -/
def take_until (pat : List Char) : List Char → Option (List Char × List Char)
  | [] => if startsWithL pat [] then some ([], []) else none
  | c :: cs =>
    if startsWithL pat (c :: cs) then some (c :: cs, [])
    else
      match take_until pat cs with
      | some (rest, pre) => some (rest, c :: pre)
      | none => none

/-- is_nom_space matches nom's `space0`/`space1` character class: a space or
a tab. -/
def is_nom_space (c : Char) : Bool := c == ' ' || c == '\t'

/-- space0 models nom's `space0`. -/
def space0 : NomParser (List Char) := fun input =>
  some (input.dropWhile is_nom_space, input.takeWhile is_nom_space)

/-- space1 models nom's `space1`. -/
def space1 : NomParser (List Char) := fun input =>
  let s := input.takeWhile is_nom_space
  if s.isEmpty then none else some (input.dropWhile is_nom_space, s)

/-- line_ending models nom's `line_ending`: `\n` or `\r\n`. -/
def line_ending : NomParser (List Char) := fun input =>
  match input with
  | '\n' :: rest => some (rest, ['\n'])
  | '\r' :: '\n' :: rest => some (rest, ['\r', '\n'])
  | _ => none

/-- alpha1 models nom's `alpha1` (one or more ASCII letters, greedy). -/
def alpha1 : NomParser (List Char) := fun input =>
  let s := input.takeWhile Char.isAlpha
  if s.isEmpty then none else some (input.dropWhile Char.isAlpha, s)

/-- alphanumeric1 models nom's `alphanumeric1`. -/
def alphanumeric1 : NomParser (List Char) := fun input =>
  let s := input.takeWhile Char.isAlphanum
  if s.isEmpty then none else some (input.dropWhile Char.isAlphanum, s)

/-- decimal embeds `pub fn decimal` (src/parser/mod.rs lines 12–14):
`recognize(many1(one_of("0123456789")))`, i.e. the maximal nonempty run of
ASCII digits. -/
def decimal : NomParser (List Char) := fun input =>
  let s := input.takeWhile Char.isDigit
  if s.isEmpty then none else some (input.dropWhile Char.isDigit, s)

/-- pand sequences two parsers, pairing their outputs (nom's `tuple` of
two; longer tuples are nested pairs). -/
def pand {α β : Type} (p : NomParser α) (q : NomParser β) : NomParser (α × β) := fun input =>
  match p input with
  | none => none
  | some (r1, v1) =>
    match q r1 with
    | none => none
    | some (r2, v2) => some (r2, (v1, v2))

/-- preceded models nom's `preceded`. -/
def preceded {α β : Type} (p : NomParser α) (q : NomParser β) : NomParser β := fun input =>
  match p input with
  | none => none
  | some (r1, _) => q r1

/-- terminated models nom's `terminated`. -/
def terminated {α β : Type} (p : NomParser α) (q : NomParser β) : NomParser α := fun input =>
  match p input with
  | none => none
  | some (r1, v) =>
    match q r1 with
    | none => none
    | some (r2, _) => some (r2, v)

/-- delimited models nom's `delimited`. -/
def delimited {α β γ : Type} (p : NomParser α) (q : NomParser β) (r : NomParser γ) :
    NomParser β :=
  preceded p (terminated q r)

/-- popt models nom's `opt`: always succeeds, consuming nothing on an inner
failure. -/
def popt {α : Type} (p : NomParser α) : NomParser (Option α) := fun input =>
  match p input with
  | none => some (input, none)
  | some (r, v) => some (r, some v)

/-- palt models nom's `alt` of two branches (longer `alt`s are nested). -/
def palt {α : Type} (p q : NomParser α) : NomParser α := fun input =>
  match p input with
  | some x => some x
  | none => q input

/-- precognize models nom's `recognize`: run the parser and output the
consumed prefix instead of its value.  (All parsers here consume from the
front, so the consumed prefix is the length difference.) -/
def precognize {α : Type} (p : NomParser α) : NomParser (List Char) := fun input =>
  match p input with
  | none => none
  | some (r, _) => some (r, input.take (input.length - r.length))

/-- pchar models nom's `char`. -/
def pchar (c : Char) : NomParser Char := fun input =>
  match input with
  | [] => none
  | d :: ds => if d == c then some (ds, c) else none

/-- one_of models nom's `one_of`. -/
def one_of (s : List Char) : NomParser Char := fun input =>
  match input with
  | [] => none
  | d :: ds => if s.contains d then some (ds, d) else none

/-- peek models nom's `peek`: run the parser but return the input
unconsumed. -/
def peek {α : Type} (p : NomParser α) : NomParser α := fun input =>
  match p input with
  | none => none
  | some (_, v) => some (input, v)

/-- separated_pair models nom's `separated_pair`. -/
def separated_pair {α σ β : Type} (p : NomParser α) (s : NomParser σ) (q : NomParser β) :
    NomParser (α × β) := fun input =>
  match p input with
  | none => none
  | some (r1, a) =>
    match s r1 with
    | none => none
    | some (r2, _) =>
      match q r2 with
      | none => none
      | some (r3, b) => some (r3, (a, b))

/-- many0Go is the fuel-driven loop behind `many0`.  Every parser `many0` is
applied to in this file consumes at least one character on success, so with
fuel `input.length + 1` the fuel never runs out and the non-consuming guard
(which stops the loop, protecting against divergence exactly like nom's
infinite-loop check) never fires. -/
def many0Go {α : Type} (p : NomParser α) : ℕ → List Char → List Char × List α
  | 0, input => (input, [])
  | fuel + 1, input =>
    match p input with
    | none => (input, [])
    | some (rest, v) =>
      if rest.length < input.length then
        let (r2, vs) := many0Go p fuel rest
        (r2, v :: vs)
      else (input, [])

/-- many0 models nom's `many0` (for the consuming parsers it is used with). -/
def many0 {α : Type} (p : NomParser α) : NomParser (List α) := fun input =>
  some (many0Go p (input.length + 1) input)

/-- many1 models nom's `many1` (for the consuming parsers it is used with):
one application of `p`, then `many0`. -/
def many1 {α : Type} (p : NomParser α) : NomParser (List α) := fun input =>
  match p input with
  | none => none
  | some (rest, v) =>
    if rest.length < input.length then
      let (r2, vs) := many0Go p rest.length rest
      some (r2, v :: vs)
    else some (rest, [v])

/-- sepListGo is the fuel-driven tail loop of `separated_list1`: repeatedly
try separator-then-element, stopping (and consuming neither) when either
fails. -/
def sepListGo {σ α : Type} (sep : NomParser σ) (p : NomParser α) :
    ℕ → List Char → List Char × List α
  | 0, input => (input, [])
  | fuel + 1, input =>
    match sep input with
    | none => (input, [])
    | some (r1, _) =>
      match p r1 with
      | none => (input, [])
      | some (r2, v) =>
        if r2.length < input.length then
          let (r3, vs) := sepListGo sep p fuel r2
          (r3, v :: vs)
        else (input, [])

/-- separated_list1 models nom's `separated_list1`. -/
def separated_list1 {σ α : Type} (sep : NomParser σ) (p : NomParser α) :
    NomParser (List α) := fun input =>
  match p input with
  | none => none
  | some (r, v) =>
    let (r2, vs) := sepListGo sep p (r.length + 1) r
    some (r2, v :: vs)

/-! ## The literal scanner `float` (src/parser/mod.rs lines 15–41) -/

/-- expChars is the character class of `one_of("eE")`. -/
def expChars : List Char := ['e', 'E']

/-- signChars is the character class of `one_of("+-")`. -/
def signChars : List Char := ['+', '-']

/-- floatCase1 embeds the first `alt` branch of `float`: `.42`-style —
`recognize(tuple((char('.'), decimal, opt(tuple((one_of("eE"),
opt(one_of("+-")), decimal))))))`. -/
def floatCase1 : NomParser (List Char) :=
  precognize
    (pand (pchar '.')
      (pand decimal (popt (pand (one_of expChars) (pand (popt (one_of signChars)) decimal)))))

/-- floatCase2 embeds the second `alt` branch of `float`: `42e42` and
`42.42e42` — `recognize(tuple((decimal, opt(preceded(char('.'), decimal)),
one_of("eE"), opt(one_of("+-")), decimal)))`. -/
def floatCase2 : NomParser (List Char) :=
  precognize
    (pand decimal
      (pand (popt (preceded (pchar '.') decimal))
        (pand (one_of expChars) (pand (popt (one_of signChars)) decimal))))

/-- floatCase3 embeds the third `alt` branch of `float`: `42.`, `+42.`,
`42.42`, `-42.e-05` — `recognize(tuple((opt(one_of("+-")), decimal,
char('.'), opt(decimal), opt(one_of("eE")), opt(one_of("+-")),
opt(decimal))))`. -/
def floatCase3 : NomParser (List Char) :=
  precognize
    (pand (popt (one_of signChars))
      (pand decimal
        (pand (pchar '.')
          (pand (popt decimal)
            (pand (popt (one_of expChars)) (pand (popt (one_of signChars)) (popt decimal)))))))

/-- float embeds `pub fn float` (src/parser/mod.rs lines 15–41): the ordered
`alt` of the three recognized branches. -/
def float : NomParser (List Char) := palt floatCase1 (palt floatCase2 floatCase3)

/-! ## Numeric value of a literal span

`num_str.parse::<f64>()` / `::<u8>()` / `::<u32>()` convert the spans the
scanners produce into numbers; the embedding keeps the exact rational (or
natural) value, with `none` for a span Rust's float grammar rejects. -/

/-- digitsVal is the natural value of a digit run (the value of
`parse::<uN>` before any range check). -/
def digitsVal (s : List Char) : ℕ :=
  s.foldl (fun acc c => acc * 10 + (c.toNat - 48)) 0

/-- litToQ is the exact rational value of a floating-point literal in Rust's
`f64::from_str` grammar `[+|-] (digits [. digits*] | . digits) [(e|E) [+|-]
digits]` — `none` when the span is not in the grammar (there the source's
`parse::<f64>().unwrap()` panics).  Rounding to `f64` is not modelled: the
claims about these values are claims about dataflow, not precision. -/
def litToQ (s : List Char) : Option ℚ :=
  let sign : ℚ × List Char :=
    match s with
    | '+' :: r => (1, r)
    | '-' :: r => (-1, r)
    | _ => (1, s)
  let s1 := sign.2
  let ip := s1.takeWhile Char.isDigit
  let s2 := s1.drop ip.length
  let fp : List Char × List Char :=
    match s2 with
    | '.' :: r => (r.takeWhile Char.isDigit, r.drop (r.takeWhile Char.isDigit).length)
    | _ => ([], s2)
  let s3 := fp.2
  let hasPoint : Bool := decide (s2 ≠ s3)
  if ip.isEmpty && (fp.1.isEmpty || !hasPoint) then none
  else
    let mantissa : ℚ := (digitsVal ip : ℚ) + (digitsVal fp.1 : ℚ) / ((10 : ℚ) ^ fp.1.length)
    match s3 with
    | [] => some (sign.1 * mantissa)
    | c :: r =>
      if c == 'e' || c == 'E' then
        let esign : ℤ × List Char :=
          match r with
          | '+' :: r2 => (1, r2)
          | '-' :: r2 => (-1, r2)
          | _ => (1, r)
        let ed := esign.2.takeWhile Char.isDigit
        if ed.isEmpty || !(esign.2.drop ed.length).isEmpty then none
        else some (sign.1 * mantissa * (10 : ℚ) ^ (esign.1 * (digitsVal ed : ℤ)))
      else none

/-! ## MSI structural state machine (src/parser/msi_parser/state_machine/mod.rs) -/

/-- lparenL is the literal `"("`. -/
def lparenL : List Char := ['(']

/-- rparenL is the literal `")"`. -/
def rparenL : List Char := [')']

/-- capAL is the literal `"A"`. -/
def capAL : List Char := ['A']

/-- closeCrNl is the literal `")\r\n"`. -/
def closeCrNl : List Char := [')', '\r', '\n']

/-- closeNl is the literal `")\n"`. -/
def closeNl : List Char := [')', '\n']

/-- twoSpClose is the literal `"  )"`. -/
def twoSpClose : List Char := [' ', ' ', ')']

/-- atomTag is the object type tag `"Atom"`. -/
def atomTag : List Char := ['A', 't', 'o', 'm']

/-- take_attribute embeds `MsiParser::take_attribute` (state_machine/mod.rs
lines 78–84): `delimited(tuple((space0, tag("("), tag("A"), space1)),
alt((take_until(")\r\n"), take_until(")\n"))), tuple((tag(")"),
line_ending)))`. -/
def take_attribute : NomParser (List Char) :=
  delimited (pand space0 (pand (ptag lparenL) (pand (ptag capAL) space1)))
    (palt (take_until closeCrNl) (take_until closeNl))
    (pand (ptag rparenL) line_ending)

/-- take_object embeds `MsiParser::take_object` (state_machine/mod.rs lines
91–97): `delimited(tuple((space0, tag("("), decimal, space1)),
take_until("  )"), tuple((space0, tag(")"), line_ending)))`. -/
def take_object : NomParser (List Char) :=
  delimited (pand space0 (pand (ptag lparenL) (pand decimal space1)))
    (take_until twoSpClose)
    (pand space0 (pand (ptag rparenL) line_ending))

/-- get_object_type embeds `MsiParser::get_object_type` (state_machine/mod.rs
lines 102–104): `terminated(alpha1, line_ending)`; the remaining input, past
the tag line, is the object's field lines. -/
def get_object_type : NomParser (List Char) := terminated alpha1 line_ending

/-- slashL is the literal `"/"`. -/
def slashL : List Char := ['/']

/-- get_attribute_type embeds `MsiParser::get_attribute_type`
(state_machine/mod.rs lines 109–115): `peek(delimited(tuple((alpha1,
space1)), recognize(many1(alt((alphanumeric1, tag("/"))))), space1))` — the
attribute's key, with the input untouched. -/
def get_attribute_type : NomParser (List Char) :=
  peek (delimited (pand alpha1 space1) (precognize (many1 (palt alphanumeric1 (ptag slashL))))
    space1)

/-- get_field embeds `MsiParser::get_field` (state_machine/mod.rs lines
118–120): `alt((take_attribute, take_object))`. -/
def get_field : NomParser (List Char) := palt take_attribute take_object

/-- model_end embeds `MsiParser::model_end` (state_machine/mod.rs lines
122–124): `tag(")")`. -/
def model_end : NomParser (List Char) := ptag rparenL

/-- MsiBuckets is the accumulating state of `MsiParser<Start>`: the three
independently ordered buckets and their counters (state_machine/mod.rs
lines 41–59). -/
structure MsiBuckets where
  model_attributes : List (List Char)
  atoms : List (List Char)
  bonds : List (List Char)
  num_attr : ℕ
  num_atom : ℕ
  num_bond : ℕ
deriving DecidableEq, Repr

/-- emptyBuckets is the state `MsiParser::new` starts with. -/
def emptyBuckets : MsiBuckets := ⟨[], [], [], 0, 0, 0⟩

/-- classifyField is one iteration body of `MsiParser::analyze`
(state_machine/mod.rs lines 219–233): an extracted field whose content
starts with an alphabetic tag line is an object — tag `"Atom"` goes to the
atom bucket, any other tag to the bond bucket — and anything else is a model
attribute; the matching counter is incremented (`push_atom` / `push_bond` /
`push_model_attribute`, lines 200–213). -/
def classifyField (b : MsiBuckets) (parsed_field : List Char) : MsiBuckets :=
  match get_object_type parsed_field with
  | some (object_fields, object_type) =>
    if object_type = atomTag then
      { b with atoms := b.atoms ++ [object_fields], num_atom := b.num_atom + 1 }
    else
      { b with bonds := b.bonds ++ [object_fields], num_bond := b.num_bond + 1 }
  | none =>
    { b with
      model_attributes := b.model_attributes ++ [parsed_field], num_attr := b.num_attr + 1 }

/-- analyzeGo is the fuel-driven `while let Ok((rest, parsed_field)) =
get_field(...)` loop of `analyze` (state_machine/mod.rs lines 219–233).
`get_field` consumes at least one character whenever it succeeds, so with
fuel `input.length + 1` the fuel never runs out and the non-consuming guard
never fires. -/
def analyzeGo : ℕ → List Char → MsiBuckets → List Char × MsiBuckets
  | 0, input, b => (input, b)
  | fuel + 1, input, b =>
    match get_field input with
    | none => (input, b)
    | some (rest, parsed_field) =>
      if rest.length < input.length then analyzeGo fuel rest (classifyField b parsed_field)
      else (input, b)

/-- analyze embeds `MsiParser<Start>::analyze` (state_machine/mod.rs lines
217–259): loop `get_field` classifying every extracted field, then
`Self::model_end(self.to_parse.unwrap()).unwrap()` — the remaining text must
begin with the model terminator `")"` or the `unwrap` panics (`none`); on
success the buckets transit to the `Analyzed` state. -/
def analyze (input : List Char) : Option MsiBuckets :=
  let s := analyzeGo (input.length + 1) input emptyBuckets
  match model_end s.1 with
  | some _ => some s.2
  | none => none

/-! ## Semantic extractors (state_machine/model_attributes_parser.rs,
state_machine/atom_parser.rs, state_machine/mod.rs `Analyzed` impl) -/

/-- AttrTable models the `HashMap<String, &str>` of `hashmap_attrs` as an
association list with `insert`-overwrite semantics; only `get` is ever
applied to it, so lookup is the whole interface. -/
def AttrTable : Type := List (List Char × List Char)

instance : Inhabited AttrTable := ⟨[]⟩

instance : Inhabited Vec3 := ⟨⟨0, 0, 0⟩⟩

/-- hashInsert is `HashMap::insert`: overwrite the entry of an existing key,
otherwise add the pair. -/
def hashInsert : AttrTable → List Char → List Char → AttrTable
  | [], k, v => [(k, v)]
  | (k0, v0) :: rest, k, v =>
    if k0 = k then (k, v) :: rest else (k0, v0) :: hashInsert rest k v

/-- hashGet is `HashMap::get`. -/
def hashGet (t : AttrTable) (k : List Char) : Option (List Char) :=
  match t with
  | [] => none
  | (k0, v0) :: rest => if k0 = k then some v0 else hashGet rest k

/-- hashmapGo folds the attribute items into the table; the
`get_attribute_type(item).unwrap()` of the source panics (`none`) on an item
without a key shape. -/
def hashmapGo : List (List Char) → AttrTable → Option AttrTable
  | [], t => some t
  | item :: rest, t =>
    match get_attribute_type item with
    | some (attr_str, key) => hashmapGo rest (hashInsert t key attr_str)
    | none => none

/-- hashmap_attrs embeds `hashmap_attrs`
(state_machine/model_attributes_parser.rs lines 16–24): each accumulated
attribute string is keyed by its attribute-name token; later duplicates
overwrite earlier ones.  The value stored is the whole item (the source's
`attr_str` is the untouched remainder of the `peek`). -/
def hashmap_attrs (attributes : List (List Char)) : Option AttrTable :=
  hashmapGo attributes []

/-- capDL is the literal `"D"`. -/
def capDL : List Char := ['D']

/-- a3Key is the attribute key `"A3"`. -/
def a3Key : List Char := ['A', '3']

/-- b3Key is the attribute key `"B3"`. -/
def b3Key : List Char := ['B', '3']

/-- c3Key is the attribute key `"C3"`. -/
def c3Key : List Char := ['C', '3']

/-- numLit is `alt((float, decimal))` as used for every numeric sub-field. -/
def numLit : NomParser (List Char) := palt float decimal

/-- parse_vector embeds `parse_vector`
(state_machine/model_attributes_parser.rs lines 119–144):
`preceded(tuple((tag("D"), space1, alt((tag("A3"), tag("B3"), tag("C3"))),
space1)), delimited(char('('), tuple((terminated(alt((float, decimal)),
space0), terminated(alt((float, decimal)), space0), alt((float, decimal)))),
char(')')))`, each span then `parse::<f64>().unwrap()`ed.  A span outside
the float grammar would panic there; that panic and nom's `Err` are both
`none` (the one call site unwraps the whole result either way). -/
def parse_vector : NomParser Vec3 := fun input =>
  match
    (preceded
        (pand (ptag capDL)
          (pand space1 (pand (palt (ptag a3Key) (palt (ptag b3Key) (ptag c3Key))) space1)))
        (delimited (pchar '(')
          (pand (terminated numLit space0) (pand (terminated numLit space0) numLit))
          (pchar ')'))) input with
  | none => none
  | some (rest, (sx, sy, sz)) =>
    match litToQ sx, litToQ sy, litToQ sz with
    | some qx, some qy, some qz => some (rest, ⟨qx, qy, qz⟩)
    | _, _, _ => none

/-- parse_lattice_vectors embeds `MsiParser<Analyzed>::parse_lattice_vectors`
(state_machine/mod.rs lines 283–294).  An empty attribute bucket yields
`None` (no lattice, `some none` here); a non-empty bucket is turned into the
table and the keys `A3`, `B3`, `C3` are looked up with `.unwrap()` — a
missing key or a failing `parse_vector` panics (`none` outcome); on success
the three vectors are assembled column-wise
(`Matrix3::from_columns(&[vec_a, vec_b, vec_c])`). -/
def parse_lattice_vectors (model_attributes : List (List Char)) : Option (Option Mat3) :=
  if model_attributes.isEmpty then some none
  else
    match hashmap_attrs model_attributes with
    | none => none
    | some attr_table =>
      match hashGet attr_table a3Key with
      | none => none
      | some sa =>
        match parse_vector sa with
        | none => none
        | some (_, vec_a) =>
          match hashGet attr_table b3Key with
          | none => none
          | some sb =>
            match parse_vector sb with
            | none => none
            | some (_, vec_b) =>
              match hashGet attr_table c3Key with
              | none => none
              | some sc =>
                match parse_vector sc with
                | none => none
                | some (_, vec_c) => some (some (Mat3.fromColumns vec_a vec_b vec_c))

/-- capCL is the literal `"C"`. -/
def capCL : List Char := ['C']

/-- capIL is the literal `"I"`. -/
def capIL : List Char := ['I']

/-- aclTag is the literal `"ACL"`. -/
def aclTag : List Char := ['A', 'C', 'L']

/-- xyzTag is the literal `"XYZ"`. -/
def xyzTag : List Char := ['X', 'Y', 'Z']

/-- idTag is the literal `"Id"`. -/
def idTag : List Char := ['I', 'd']

/-- parse_acl embeds `parse_acl` (state_machine/atom_parser.rs lines 15–26):
`preceded(tuple((tag("C"), space1, tag("ACL"), space1)), delimited(char('"'),
separated_pair(decimal, space1, alpha1), char('"')))`, the number then
`parse::<u8>().unwrap()`ed.  The embedding keeps the raw natural value; the
`u8` overflow panic (value above 255) is excluded by the well-formedness
hypotheses wherever `parse_atoms` appears in a theorem. -/
def parse_acl : NomParser (ℕ × List Char) := fun input =>
  match
    (preceded (pand (ptag capCL) (pand space1 (pand (ptag aclTag) space1)))
        (delimited (pchar '"') (separated_pair decimal space1 alpha1) (pchar '"'))) input with
  | none => none
  | some (rest, (num, symbol)) => some (rest, (digitsVal num, symbol))

/-- parse_xyz embeds `parse_xyz` (state_machine/atom_parser.rs lines 33–48):
`preceded(tuple((tag("D"), space1, tag("XYZ"), space1)), delimited(tag("("),
separated_list1(space1, alt((float, decimal))), tag(")")))`, each span
`parse::<f64>().unwrap()`ed and the first three passed to
`Point3::from_slice` (which panics below three elements).  Both panics are
excluded by the well-formedness hypotheses wherever `parse_atoms` appears in
a theorem; here they are conflated with the parse failure (`none`). -/
def parse_xyz : NomParser Vec3 := fun input =>
  match
    (preceded (pand (ptag capDL) (pand space1 (pand (ptag xyzTag) space1)))
        (delimited (ptag lparenL) (separated_list1 space1 numLit) (ptag rparenL))) input with
  | none => none
  | some (rest, spans) =>
    match spans.mapM litToQ with
    | none => none
    | some qs =>
      match qs with
      | qx :: qy :: qz :: _ => some (rest, ⟨qx, qy, qz⟩)
      | _ => none

/-- parse_id embeds `parse_id` (state_machine/atom_parser.rs lines 50–53):
`preceded(tuple((tag("I"), space1, tag("Id"), space1)), decimal)` with
`parse::<u32>().unwrap()` — the raw natural value is kept and the overflow
panic is excluded by well-formedness wherever `parse_atoms` appears in a
theorem. -/
def parse_id : NomParser ℕ := fun input =>
  match (preceded (pand (ptag capIL) (pand space1 (pand (ptag idTag) space1))) decimal) input with
  | none => none
  | some (rest, s) => some (rest, digitsVal s)

/-- AtomColumns is the quadruple of mutable column vectors `parse_atoms`
accumulates (state_machine/mod.rs lines 296–299). -/
structure AtomColumns where
  element_symbols : List String
  atomic_numbers : List ℕ
  xyz_coords : List Vec3
  atom_ids : List ℕ
deriving DecidableEq, Repr

/-- emptyColumns is the initial (empty) state of the four column vectors. -/
def emptyColumns : AtomColumns := ⟨[], [], [], []⟩

/-- classifyAtomItem is the body of the inner loop of `parse_atoms`
(state_machine/mod.rs lines 304–315): try `parse_acl`, then `parse_xyz`,
then `parse_id`, pushing to the matching columns, else skip the item. -/
def classifyAtomItem (cols : AtomColumns) (item : List Char) : AtomColumns :=
  match parse_acl item with
  | some (_, (num, symbol)) =>
    { cols with
      atomic_numbers := cols.atomic_numbers ++ [num]
      element_symbols := cols.element_symbols ++ [String.mk symbol] }
  | none =>
    match parse_xyz item with
    | some (_, xyz) => { cols with xyz_coords := cols.xyz_coords ++ [xyz] }
    | none =>
      match parse_id item with
      | some (_, id) => { cols with atom_ids := cols.atom_ids ++ [id] }
      | none => cols

/-- atomFieldItems is `many0(Self::take_attribute)(atom_fields).unwrap().1`:
the attribute items extracted from one atom block's field lines
(state_machine/mod.rs line 303; the `unwrap` cannot fail, `many0` always
returns `Ok`). -/
def atomFieldItems (atom_fields : List Char) : List (List Char) :=
  match many0 take_attribute atom_fields with
  | some (_, items) => items
  | none => []

/-- parse_atoms embeds `MsiParser<Analyzed>::parse_atoms`
(state_machine/mod.rs lines 295–332): every accumulated atom block is
re-scanned with `many0(take_attribute)` and its items classified into the
four columns; `fractional_xyz` is `num_atom` copies of `None`; then the
builder is driven through `with_atom_ids`, `with_element_symbols`,
`with_atomic_nums`, `with_xyz_coords`, `with_fractional_xyz`, `finish`,
`build`, each `.unwrap()`ed — any builder error is a panic (`none`). -/
def parse_atoms (atomsBucket : List (List Char)) (num_atom : ℕ) : Option AtomCollection :=
  let cols :=
    atomsBucket.foldl
      (fun cols atom_fields => (atomFieldItems atom_fields).foldl classifyAtomItem cols)
      emptyColumns
  let frac_xyz : List (Option Vec3) := List.replicate num_atom none
  match (AtomCollectionBuilder.new num_atom).with_atom_ids cols.atom_ids with
  | Except.error _ => none
  | Except.ok b1 =>
    match b1.with_element_symbols cols.element_symbols with
    | Except.error _ => none
    | Except.ok b2 =>
      match b2.with_atomic_nums cols.atomic_numbers with
      | Except.error _ => none
      | Except.ok b3 =>
        match b3.with_xyz_coords cols.xyz_coords with
        | Except.error _ => none
        | Except.ok b4 =>
          match b4.with_fractional_xyz frac_xyz with
          | Except.error _ => none
          | Except.ok b5 =>
            match b5.finish with
            | Except.error _ => none
            | Except.ok b6 => b6.build

/-! ## Concrete inputs used by counterexamples and witnesses -/

/-- periodicTypeItemStr is an accumulated attribute item carrying only a
`PeriodicType` attribute (the shape the attribute bucket holds after
`analyze` for `(A I PeriodicType 100)`). -/
def periodicTypeItemStr : String := "I PeriodicType 100"

/-- periodicTypeItem is `periodicTypeItemStr` as a character list. -/
def periodicTypeItem : List Char := periodicTypeItemStr.toList

/-- a3ItemStr is the accumulated attribute item of `(A D A3 (10 0 0))`. -/
def a3ItemStr : String := "D A3 (10 0 0)"

/-- a3Item is `a3ItemStr` as a character list. -/
def a3Item : List Char := a3ItemStr.toList

/-- b3ItemStr is the accumulated attribute item of `(A D B3 (0 10 0))`. -/
def b3ItemStr : String := "D B3 (0 10 0)"

/-- b3Item is `b3ItemStr` as a character list. -/
def b3Item : List Char := b3ItemStr.toList

/-- c3ItemStr is the accumulated attribute item of `(A D C3 (0 0 10))`. -/
def c3ItemStr : String := "D C3 (0 0 10)"

/-- c3Item is `c3ItemStr` as a character list. -/
def c3Item : List Char := c3ItemStr.toList

/-- fullLatticeBucket is an attribute bucket holding the three lattice-vector
attributes of a cubic cell of edge 10. -/
def fullLatticeBucket : List (List Char) := [a3Item, b3Item, c3Item]

/-- junkModelStr is model-scope text on which the field-extraction loop
exhausts immediately and the remainder does not begin with the model
terminator `)`. -/
def junkModelStr : String := "junk"

/-- junkModelInput is `junkModelStr` as a character list. -/
def junkModelInput : List Char := junkModelStr.toList

/-- minusDot42Str is the input `-.42`: a floating-point literal that is
signed and misses the integer part before the decimal point. -/
def minusDot42Str : String := "-.42"

/-- minusDot42 is `minusDot42Str` as a character list. -/
def minusDot42 : List Char := minusDot42Str.toList

/-- dot42Str is the unsigned literal `.42` missing its integer part. -/
def dot42Str : String := ".42"

/-- dot42 is `dot42Str` as a character list. -/
def dot42 : List Char := dot42Str.toList

/-- minus42dot5Str is the signed literal `-42.5` with its integer part. -/
def minus42dot5Str : String := "-42.5"

/-- minus42dot5 is `minus42dot5Str` as a character list. -/
def minus42dot5 : List Char := minus42dot5Str.toList

/-! ## The shapes the literal scanner supports

Modelled from the amended claim's words (the grammar the scanner's three
`alt` branches accept), for comparison with the `float` definition taken
from the source: a specification-side description of the supported literal
shapes. -/

/-- AllDigits s — a nonempty run of ASCII digits. -/
def AllDigits (s : List Char) : Prop := s ≠ [] ∧ ∀ c ∈ s, c.isDigit = true

/-- OptSign s — an optional single sign character. -/
def OptSign (s : List Char) : Prop := s = [] ∨ s = ['+'] ∨ s = ['-']

/-- ExpClause e — a complete exponent: `e` or `E`, an optional sign, and a
nonempty digit run. -/
def ExpClause (e : List Char) : Prop :=
  ∃ c sg d, (c = 'e' ∨ c = 'E') ∧ OptSign sg ∧ AllDigits d ∧ e = c :: (sg ++ d)

/-- DotLeadShape s — the first supported shape: a literal missing its
integer part, `.` followed by digits and an optional complete exponent
(`.42`, `.42e-7`). -/
def DotLeadShape (s : List Char) : Prop :=
  ∃ d e, AllDigits d ∧ (e = [] ∨ ExpClause e) ∧ s = '.' :: (d ++ e)

/-- ExpMandShape s — the second supported shape: digits, an optional
fraction, and a mandatory complete exponent (`42e42`, `42.42e42`); no sign
is accepted. -/
def ExpMandShape (s : List Char) : Prop :=
  ∃ i f e, AllDigits i ∧ (f = [] ∨ ∃ fd, AllDigits fd ∧ f = '.' :: fd) ∧ ExpClause e ∧
    s = i ++ (f ++ e)

/-- SignDotShape s — the third supported shape: an optional sign, digits and
a mandatory decimal point, then three independently optional trailing
pieces: fraction digits, an `e`/`E` marker, a sign, digits (`42.`, `+42.`,
`42.42`, `-42.e-05`; the independence also admits spans such as `42.e`). -/
def SignDotShape (s : List Char) : Prop :=
  ∃ sg i f e sg2 d, OptSign sg ∧ AllDigits i ∧ (∀ c ∈ f, c.isDigit = true) ∧
    (e = [] ∨ e = ['e'] ∨ e = ['E']) ∧ OptSign sg2 ∧ (∀ c ∈ d, c.isDigit = true) ∧
    s = sg ++ (i ++ '.' :: (f ++ (e ++ (sg2 ++ d))))

/-- FloatLiteralShape s — one of the three shapes the scanner supports. -/
def FloatLiteralShape (s : List Char) : Prop :=
  DotLeadShape s ∨ ExpMandShape s ∨ SignDotShape s

/-- HeadNotDigit x — the text does not begin with a digit (greedy digit runs
stop exactly at its front). -/
def HeadNotDigit (x : List Char) : Prop := ∀ c, x.head? = some c → c.isDigit = false

/-! ## Documents as block lists (for the order-independence claim)

A well-formed model scope is a sequence of blocks — attribute fields
`<indent>(A <content>)\n` and object fields `<indent>(<index> <type>\n<inner>  )\n`
— followed by the scope terminator `)`.  Permuting the block list is exactly
the "any interleaving of attribute, atom and bond blocks" of the claim. -/

/-- MsiBlock is one field of a model scope: an attribute field or an object
field. -/
inductive MsiBlock where
  /-- attr ind content — rendered `<ind>(A <content>)\n`. -/
  | attr : (ind : List Char) → (content : List Char) → MsiBlock
  /-- obj ind idx ty inner — rendered `<ind>(<idx> <ty>\n<inner>  )\n`. -/
  | obj : (ind idx ty inner : List Char) → MsiBlock
deriving DecidableEq, Repr

/-- renderBlock is the concrete text of one block. -/
def renderBlock : MsiBlock → List Char
  | MsiBlock.attr ind c => ind ++ ('(' :: 'A' :: ' ' :: (c ++ [')', '\n']))
  | MsiBlock.obj ind idx ty inner =>
    ind ++ ('(' :: (idx ++ (' ' :: (ty ++ ('\n' :: (inner ++ [' ', ' ', ')', '\n']))))))

/-- renderBlocks is the concatenated text of a block list. -/
def renderBlocks (L : List MsiBlock) : List Char := (L.map renderBlock).join

/-- docOf is the model-scope text the analyzer receives after `starts()`:
the rendered blocks followed by the scope terminator. -/
def docOf (L : List MsiBlock) : List Char := renderBlocks L ++ [')']

/-- contentOf is the text `get_field` extracts from one rendered block: the
attribute's content, or the object's type-tag line plus field lines. -/
def contentOf : MsiBlock → List Char
  | MsiBlock.attr _ c => c
  | MsiBlock.obj _ _ ty inner => ty ++ ('\n' :: inner)

/-- hasPat pat l — `pat` occurs as a contiguous run inside `l`. -/
def hasPat (pat : List Char) : List Char → Bool
  | [] => startsWithL pat []
  | c :: cs => startsWithL pat (c :: cs) || hasPat pat cs

/-- wfBlock is well-formedness of one block: indentation is spaces/tabs; an
attribute's content is nonempty, does not start with a space and contains no
line ending; an object's index is a nonempty digit run, its type tag a
nonempty alphabetic run, and its field lines contain no `\r` and no early
`"  )"` terminator. -/
def wfBlock : MsiBlock → Bool
  | MsiBlock.attr ind c =>
    ind.all is_nom_space && !c.isEmpty &&
      (match c with
        | c0 :: _ => !is_nom_space c0
        | [] => false) &&
      !c.contains '\n' && !c.contains '\r'
  | MsiBlock.obj ind idx ty inner =>
    ind.all is_nom_space && !idx.isEmpty && idx.all Char.isDigit && !ty.isEmpty &&
      ty.all Char.isAlpha && !hasPat twoSpClose inner && !inner.contains '\r'

/-- attrKey is the key `hashmap_attrs` files an attribute item under. -/
def attrKey (c : List Char) : Option (List Char) := (get_attribute_type c).map Prod.snd

/-- attrsOf is the attribute bucket a block list produces. -/
def attrsOf (L : List MsiBlock) : List (List Char) :=
  L.filterMap fun bl =>
    match bl with
    | MsiBlock.attr _ c => some c
    | MsiBlock.obj _ _ _ _ => none

/-- atomsOf is the atom bucket a block list produces (objects tagged
`Atom`). -/
def atomsOf (L : List MsiBlock) : List (List Char) :=
  L.filterMap fun bl =>
    match bl with
    | MsiBlock.attr _ _ => none
    | MsiBlock.obj _ _ ty inner => if ty = atomTag then some inner else none

/-- bondsOf is the bond bucket a block list produces (objects with any other
tag). -/
def bondsOf (L : List MsiBlock) : List (List Char) :=
  L.filterMap fun bl =>
    match bl with
    | MsiBlock.attr _ _ => none
    | MsiBlock.obj _ _ ty inner => if ty = atomTag then none else some inner

/-- AtomItemVal is the classification `parse_atoms` gives one extracted atom
field item (the if-let chain of state_machine/mod.rs lines 305–314). -/
inductive AtomItemVal where
  | aclVal : ℕ → List Char → AtomItemVal
  | coordVal : Vec3 → AtomItemVal
  | identVal : ℕ → AtomItemVal
  | skipVal : AtomItemVal
deriving DecidableEq, Repr

/-- classifyItem is the classification function behind `classifyAtomItem`. -/
def classifyItem (item : List Char) : AtomItemVal :=
  match parse_acl item with
  | some (_, (num, symbol)) => AtomItemVal.aclVal num symbol
  | none =>
    match parse_xyz item with
    | some (_, xyz) => AtomItemVal.coordVal xyz
    | none =>
      match parse_id item with
      | some (_, id) => AtomItemVal.identVal id
      | none => AtomItemVal.skipVal

/-- selSym selects the element symbol a classified item contributes. -/
def selSym : AtomItemVal → Option String
  | AtomItemVal.aclVal _ s => some (String.mk s)
  | _ => none

/-- selNum selects the atomic number a classified item contributes. -/
def selNum : AtomItemVal → Option ℕ
  | AtomItemVal.aclVal n _ => some n
  | _ => none

/-- selXyz selects the coordinate triple a classified item contributes. -/
def selXyz : AtomItemVal → Option Vec3
  | AtomItemVal.coordVal v => some v
  | _ => none

/-- selId selects the atom id a classified item contributes. -/
def selId : AtomItemVal → Option ℕ
  | AtomItemVal.identVal n => some n
  | _ => none

/-- symsOf lists the element symbols an atom block contributes. -/
def symsOf (a : List Char) : List String :=
  (atomFieldItems a).filterMap fun it => selSym (classifyItem it)

/-- numsOf lists the atomic numbers an atom block contributes. -/
def numsOf (a : List Char) : List ℕ :=
  (atomFieldItems a).filterMap fun it => selNum (classifyItem it)

/-- xyzsOf lists the cartesian coordinates an atom block contributes. -/
def xyzsOf (a : List Char) : List Vec3 :=
  (atomFieldItems a).filterMap fun it => selXyz (classifyItem it)

/-- idsOf lists the atom ids an atom block contributes. -/
def idsOf (a : List Char) : List ℕ :=
  (atomFieldItems a).filterMap fun it => selId (classifyItem it)

/-- atomBlockOneEach — the atom block contributes exactly one symbol/number
pair, one coordinate triple and one id (so its row is unambiguous). -/
def atomBlockOneEach (a : List Char) : Bool :=
  (symsOf a).length == 1 && (numsOf a).length == 1 && (xyzsOf a).length == 1 &&
    (idsOf a).length == 1

/-- WfDocB is well-formedness of a whole document: every block well-formed,
every attribute item key-shaped with pairwise distinct keys, and every atom
block contributing exactly one of each column entry. -/
def WfDocB (L : List MsiBlock) : Bool :=
  L.all wfBlock && (attrsOf L).all (fun c => (attrKey c).isSome) &&
    decide (((attrsOf L).map attrKey).Nodup) && (atomsOf L).all atomBlockOneEach

/-- collectionRows zips an atom table into its rows (symbol, atomic number,
cartesian position, id) for multiset comparison. -/
def collectionRows (c : AtomCollection) : List (String × ℕ × Vec3 × ℕ) :=
  c.element_symbols.zip (c.atomic_nums.zip (c.xyz_coords.zip c.atom_ids))

/-- bucketsOf is the bucket state `analyze` reaches on a well-formed block
list: the three buckets in block order with their counters. -/
def bucketsOf (L : List MsiBlock) : MsiBuckets :=
  ⟨attrsOf L, atomsOf L, bondsOf L, (attrsOf L).length, (atomsOf L).length,
    (bondsOf L).length⟩

/-- rowOfBlock is the (symbol, atomic number, position, id) row one
one-of-each atom block contributes to the table. -/
def rowOfBlock (a : List Char) : String × ℕ × Vec3 × ℕ :=
  ((symsOf a).headD "", ((numsOf a).headD 0, ((xyzsOf a).headD ⟨0, 0, 0⟩, (idsOf a).headD 0)))

/-- lastKeyed items k is the last attribute item filed under key `k` —
the value `HashMap::insert`'s last-wins behaviour leaves in the table. -/
def lastKeyed (items : List (List Char)) (k : List Char) : Option (List Char) :=
  (items.filter (fun c => attrKey c == some k)).getLast?

/-- c4AttrBlock is the rendered attribute field `(A I PeriodicType 100)`. -/
def c4AttrBlock : MsiBlock := MsiBlock.attr [' '] "I PeriodicType 100".toList

/-- c4AtomBlock is a rendered `Atom` object with one ACL, one XYZ and one Id
field. -/
def c4AtomBlock : MsiBlock :=
  MsiBlock.obj [' '] "2".toList "Atom".toList
    "    (A C ACL \"1 H\")\n    (A D XYZ (0.5 0.5 0.5))\n    (A I Id 1)\n".toList

/-- c4BondBlock is a rendered `Bond` object. -/
def c4BondBlock : MsiBlock :=
  MsiBlock.obj [' '] "3".toList "Bond".toList "    (A I Id 2)\n".toList

/-- c4DocA is the canonical block order: attribute, atom, bond. -/
def c4DocA : List MsiBlock := [c4AttrBlock, c4AtomBlock, c4BondBlock]

/-- c4DocB is a permuted interleaving: the atom block precedes the attribute
block. -/
def c4DocB : List MsiBlock := [c4AtomBlock, c4AttrBlock, c4BondBlock]

end CastepModelCore

namespace CastepModelCore

/-! ## Theorems for the claims -/

/-- C1 — the claim says the MSI→CELL conversion applies no rotation for a
lattice whose `a` vector already lies along the x-axis and never normalizes
the zero-length cross product; the code (src/model_type/cell.rs lines 70–81)
has no such guard.  At the spec's own concrete scenario — cubic lattice
`a = (10,0,0)` — the conversion calls `normalize()` on the zero vector
`a × x̂ = (0,0,0)`, producing a NaN rotation axis that the quaternion rotation
propagates into every coordinate.  The CELL→MSI direction
(src/model_type/msi.rs lines 121–133) does guard on `b_to_y_angle != 0.0`
and skips the rotation for `b = (0,10,0)`, as the claim states. -/
theorem c1_cell_rotation_normalizes_zero_cross_at_aligned_lattice :
    cellFromMsiRotation ⟨10, 0, 0⟩ = RotOutcome.rotatedAbout ⟨0, 0, 0⟩ ∧
      normalizesZeroVector (cellFromMsiRotation ⟨10, 0, 0⟩) = true ∧
      msiFromCellRotation ⟨0, 10, 0⟩ = RotOutcome.skipped := by
  refine ⟨?_, ?_, ?_⟩
  · norm_num [cellFromMsiRotation, Vec3.cross, x_axis]
  · norm_num [cellFromMsiRotation, normalizesZeroVector, Vec3.cross, Vec3.normSq, Vec3.dot,
      x_axis]
  · norm_num [msiFromCellRotation, angleIsZero, Vec3.dot, Vec3.normSq, y_axis]

/-- C2 counterexample — the claim says a degenerate (zero-volume) basis makes
`fractional_coord_matrix` surface a distinct geometry error value to the
caller; the source (src/lattice/mod.rs line 155) instead ends in
`to_cart.try_inverse().unwrap()`, whose return type has no error channel at
all, and the failed inversion panics.  For the coplanar basis
`a = (1,0,0), b = (0,1,0), c = (1,1,0)` (here `‖a‖ = 1` and `‖a × b‖ = 1`
exactly, so the rational embedding is exact) the constructed matrix is
singular and the call panics (`none`), so no error value is produced. -/
theorem c2_fractional_coord_matrix_panics_on_degenerate_basis :
    fractional_coord_matrix ⟨1, 0, 0⟩ ⟨0, 1, 0⟩ ⟨1, 1, 0⟩ 1 1 = none ∧
      (1 : ℚ) ^ 2 = Vec3.normSq ⟨1, 0, 0⟩ ∧
      (1 : ℚ) ^ 2 = Vec3.normSq (Vec3.cross ⟨1, 0, 0⟩ ⟨0, 1, 0⟩) ∧
      Vec3.dot ⟨1, 0, 0⟩ (Vec3.cross ⟨0, 1, 0⟩ ⟨1, 1, 0⟩) = 0 := by
  refine ⟨?_, by norm_num [Vec3.normSq, Vec3.dot],
    by norm_num [Vec3.normSq, Vec3.dot, Vec3.cross],
    by norm_num [Vec3.dot, Vec3.cross]⟩
  norm_num [fractional_coord_matrix, Mat3.tryInverse, to_cart, Mat3.det, Vec3.dot, Vec3.cross]

/-- C2 amended — for every lattice basis with zero cell volume (and `a` and
`a × b` nonzero, so that the matrix entries themselves are finite), the
cartesian-construction matrix is singular, `try_inverse` returns `None`, and
`fractional_coord_matrix` panics on the `unwrap` (modelled by `none`) instead
of returning a geometry error value to the caller. -/
theorem c2_fractional_coord_matrix_unwrap_panic (a b c : Vec3) (la lab : ℚ)
    (hla : la ^ 2 = a.normSq) (hlab : lab ^ 2 = (a.cross b).normSq)
    (hla0 : la ≠ 0) (hlab0 : lab ≠ 0)
    (hvol : a.dot (b.cross c) = 0) :
    fractional_coord_matrix a b c la lab = none := by
  have hdet : (to_cart a b c la lab).det = 0 := by
    simp only [to_cart, Mat3.det]
    field_simp
    rw [hvol]
    ring
  unfold fractional_coord_matrix Mat3.tryInverse
  simp [hdet]

/-- c2 witness — the amended theorem applied at the concrete degenerate basis
`a = (1,0,0), b = (0,1,0), c = (1,1,0)` with `la = lab = 1`. -/
theorem c2_fractional_coord_matrix_unwrap_panic_witness :
    ((1 : ℚ) ^ 2 = Vec3.normSq ⟨1, 0, 0⟩ ∧
        (1 : ℚ) ^ 2 = Vec3.normSq (Vec3.cross ⟨1, 0, 0⟩ ⟨0, 1, 0⟩) ∧
        (1 : ℚ) ≠ 0 ∧
        Vec3.dot ⟨1, 0, 0⟩ (Vec3.cross ⟨0, 1, 0⟩ ⟨1, 1, 0⟩) = 0) ∧
      fractional_coord_matrix ⟨1, 0, 0⟩ ⟨0, 1, 0⟩ ⟨1, 1, 0⟩ 1 1 = none :=
  ⟨⟨by norm_num [Vec3.normSq, Vec3.dot], by norm_num [Vec3.normSq, Vec3.dot, Vec3.cross],
      by norm_num, by norm_num [Vec3.dot, Vec3.cross]⟩,
    c2_fractional_coord_matrix_unwrap_panic ⟨1, 0, 0⟩ ⟨0, 1, 0⟩ ⟨1, 1, 0⟩ 1 1
      (by norm_num [Vec3.normSq, Vec3.dot]) (by norm_num [Vec3.normSq, Vec3.dot, Vec3.cross])
      (by norm_num) (by norm_num) (by norm_num [Vec3.dot, Vec3.cross])⟩

/-- C3 — merging two models concatenates the atom tables: the merged count is
the sum of the counts, the atoms coming from `A` are unchanged (ids included),
and every atom id coming from `B` equals its original id plus `A`'s atom count
(the source shifts by `self.atoms().len() as u32`, which under the dense
1-based id assumption equals `A`'s maximum id).  The hypotheses rule out `u32`
wrap-around of the shifted ids.  The final conjunct is the spec's concrete
scenario: merging two single-atom models with ids `[1]` and `[1]` yields ids
`[1, 2]`. -/
theorem c3_merge_concatenates_and_shifts_ids {L T : Type} (A B : LatticeModel L T)
    (hA : A.atoms.length < U32_MOD)
    (hB : ∀ a ∈ B.atoms, a.atom_id + A.atoms.length < U32_MOD) :
    (A.add B).atoms.length = A.atoms.length + B.atoms.length ∧
      (A.add B).atoms.take A.atoms.length = A.atoms ∧
      ((A.add B).atoms.drop A.atoms.length).map RAtom.atom_id =
        B.atoms.map (fun a => a.atom_id + A.atoms.length) ∧
      ((exampleSingleAtomModel 1).add (exampleSingleAtomModel 1)).atoms.map RAtom.atom_id =
        [1, 2] := by
  have hmodA : A.atoms.length % U32_MOD = A.atoms.length := Nat.mod_eq_of_lt hA
  refine ⟨?_, ?_, ?_, by decide⟩
  · simp [LatticeModel.add]
  · simp only [LatticeModel.add]
    exact List.take_left A.atoms _
  · simp only [LatticeModel.add]
    rw [List.drop_left, List.map_map]
    refine List.map_congr_left ?_
    intro a ha
    simp only [Function.comp_apply, hmodA]
    exact Nat.mod_eq_of_lt (hB a ha)

/-- c3 witness — the merge theorem applied to the two concrete single-atom
models of the spec scenario. -/
theorem c3_merge_concatenates_and_shifts_ids_witness :
    ((exampleSingleAtomModel 1).atoms.length < U32_MOD ∧
        ∀ a ∈ (exampleSingleAtomModel 1).atoms,
          a.atom_id + (exampleSingleAtomModel 1).atoms.length < U32_MOD) ∧
      ((exampleSingleAtomModel 1).add (exampleSingleAtomModel 1)).atoms.length =
          (exampleSingleAtomModel 1).atoms.length + (exampleSingleAtomModel 1).atoms.length ∧
        ((exampleSingleAtomModel 1).add (exampleSingleAtomModel 1)).atoms.take
            (exampleSingleAtomModel 1).atoms.length = (exampleSingleAtomModel 1).atoms ∧
        (((exampleSingleAtomModel 1).add (exampleSingleAtomModel 1)).atoms.drop
              (exampleSingleAtomModel 1).atoms.length).map RAtom.atom_id =
          (exampleSingleAtomModel 1).atoms.map
            (fun a => a.atom_id + (exampleSingleAtomModel 1).atoms.length) ∧
        ((exampleSingleAtomModel 1).add (exampleSingleAtomModel 1)).atoms.map RAtom.atom_id =
          [1, 2] :=
  ⟨⟨by decide, by decide⟩,
    c3_merge_concatenates_and_shifts_ids (exampleSingleAtomModel 1) (exampleSingleAtomModel 1)
      (by decide) (by decide)⟩

/-- C9 — looking an atom up by id with `1 ≤ atom_id ≤ n` returns the atom at
row offset `atom_id − 1`, and with `atom_id > n` returns the `InvalidIndex`
error, for both the shared and the mutable accessor.  (`atom_id` is a `u32`,
hence the bound `atom_id < 2^32`; the source computes the offset as
`atom_id as usize - 1`.) -/
theorem c9_get_atom_by_id_offset_and_bounds {L T : Type} (m : LatticeModel L T)
    (atom_id : ℕ) (h1 : 1 ≤ atom_id) (h2 : atom_id < U32_MOD) :
    (atom_id ≤ m.atoms.length →
        m.get_atom_by_id atom_id = Except.ok (m.atoms.getD (atom_id - 1) defaultAtom) ∧
          m.get_mut_atom_by_id atom_id = Except.ok (m.atoms.getD (atom_id - 1) defaultAtom)) ∧
      (m.atoms.length < atom_id →
        m.get_atom_by_id atom_id = Except.error InvalidIndex.mk ∧
          m.get_mut_atom_by_id atom_id = Except.error InvalidIndex.mk) := by
  have hidx : (atom_id + (USIZE_MOD - 1)) % USIZE_MOD = atom_id - 1 := by
    simp only [USIZE_MOD]
    simp only [U32_MOD] at h2
    omega
  constructor
  · intro hle
    have hlt : atom_id - 1 < m.atoms.length := by omega
    have hget : m.atoms.get? (atom_id - 1) = some (m.atoms.getD (atom_id - 1) defaultAtom) := by
      rw [List.getD_eq_getElem?_getD]
      rw [List.get?_eq_getElem?]
      simp [List.getElem?_eq_getElem hlt]
    constructor
    · unfold LatticeModel.get_atom_by_id
      rw [hidx, hget]
    · unfold LatticeModel.get_mut_atom_by_id
      rw [hidx, hget]
  · intro hgt
    have hge : m.atoms.length ≤ atom_id - 1 := by omega
    have hget : m.atoms.get? (atom_id - 1) = none := by
      rw [List.get?_eq_getElem?]
      exact List.getElem?_eq_none hge
    constructor
    · unfold LatticeModel.get_atom_by_id
      rw [hidx, hget]
    · unfold LatticeModel.get_mut_atom_by_id
      rw [hidx, hget]

/-- c9 witness — the lookup theorem applied to the concrete single-atom model
with id 1: looking up id 1 returns the atom at offset 0, and looking up id 2
returns `InvalidIndex`. -/
theorem c9_get_atom_by_id_offset_and_bounds_witness :
    ((1 ≤ 1 ∧ 1 < U32_MOD) ∧
        (1 ≤ (exampleSingleAtomModel 1).atoms.length →
          (exampleSingleAtomModel 1).get_atom_by_id 1 =
              Except.ok ((exampleSingleAtomModel 1).atoms.getD 0 defaultAtom) ∧
            (exampleSingleAtomModel 1).get_mut_atom_by_id 1 =
              Except.ok ((exampleSingleAtomModel 1).atoms.getD 0 defaultAtom))) ∧
      ((exampleSingleAtomModel 1).atoms.length < 2 →
        (exampleSingleAtomModel 1).get_atom_by_id 2 = Except.error InvalidIndex.mk ∧
          (exampleSingleAtomModel 1).get_mut_atom_by_id 2 = Except.error InvalidIndex.mk) :=
  ⟨⟨⟨by decide, by decide⟩,
      (c9_get_atom_by_id_offset_and_bounds (exampleSingleAtomModel 1) 1 (by decide)
            (by decide)).1⟩,
    (c9_get_atom_by_id_offset_and_bounds (exampleSingleAtomModel 1) 2 (by decide) (by decide)).2⟩

/-- C10 — the merged model keeps exactly `A`'s lattice vectors and `A`'s
dialect marker/settings value; `B`'s lattice vectors and settings are
discarded, and only `B`'s atoms (with ids shifted by `A`'s count) contribute
to the result. -/
theorem c10_merge_keeps_left_lattice_and_settings {L T : Type} (A B : LatticeModel L T) :
    (A.add B).lattice_vectors = A.lattice_vectors ∧
      (A.add B).model_type = A.model_type ∧
      (A.add B).atoms =
        A.atoms ++
          B.atoms.map
            (fun atom =>
              { atom with
                atom_id := (atom.atom_id + A.atoms.length % U32_MOD) % U32_MOD }) :=
  ⟨rfl, rfl, rfl⟩

/-- C7 — every column setter of the atom-table builder rejects a column whose
length differs from the declared size with an `InconsistentSize` error
carrying the actual and the expected length; `finish` on a builder with an
absent column fails with a `MissingField` error naming an absent column; and
any builder reachable by the staged construction (the `ColumnsSized`
invariant, established by `new` and preserved by every setter) that passes
`finish` builds a table whose five columns all have the declared length —
never ragged. -/
theorem c7_builder_rejects_mismatch_and_missing :
    (∀ (b : AtomCollectionBuilder) (v : List String), v.length ≠ b.size →
        b.with_element_symbols v =
          Except.error (AtomCollectionBuildingError.InconsistentSize v.length b.size)) ∧
      (∀ (b : AtomCollectionBuilder) (v : List ℕ), v.length ≠ b.size →
        b.with_atomic_nums v =
          Except.error (AtomCollectionBuildingError.InconsistentSize v.length b.size)) ∧
      (∀ (b : AtomCollectionBuilder) (v : List Vec3), v.length ≠ b.size →
        b.with_xyz_coords v =
          Except.error (AtomCollectionBuildingError.InconsistentSize v.length b.size)) ∧
      (∀ (b : AtomCollectionBuilder) (v : List (Option Vec3)), v.length ≠ b.size →
        b.with_fractional_xyz v =
          Except.error (AtomCollectionBuildingError.InconsistentSize v.length b.size)) ∧
      (∀ (b : AtomCollectionBuilder) (v : List ℕ), v.length ≠ b.size →
        b.with_atom_ids v =
          Except.error (AtomCollectionBuildingError.InconsistentSize v.length b.size)) ∧
      (∀ b : AtomCollectionBuilder,
        (b.atomic_nums = none ∨ b.element_symbols = none ∨ b.xyz_coords = none ∨
            b.fractional_xyz = none ∨ b.atom_ids = none) →
          ∃ name, b.finish = Except.error (AtomCollectionBuildingError.MissingField name) ∧
            columnIsAbsent b name) ∧
      (∀ b r : AtomCollectionBuilder, b.ColumnsSized → b.finish = Except.ok r →
        ∃ coll, r.build = some coll ∧
          coll.element_symbols.length = b.size ∧ coll.atomic_nums.length = b.size ∧
            coll.xyz_coords.length = b.size ∧ coll.fractional_xyz.length = b.size ∧
              coll.atom_ids.length = b.size) ∧
      (∀ size, (AtomCollectionBuilder.new size).ColumnsSized) ∧
      (∀ (b r : AtomCollectionBuilder) (v : List String), b.ColumnsSized → b.with_element_symbols v = Except.ok r →
        r.ColumnsSized) ∧
      (∀ (b r : AtomCollectionBuilder) (v : List ℕ), b.ColumnsSized → b.with_atomic_nums v = Except.ok r →
        r.ColumnsSized) ∧
      (∀ (b r : AtomCollectionBuilder) (v : List Vec3), b.ColumnsSized → b.with_xyz_coords v = Except.ok r →
        r.ColumnsSized) ∧
      (∀ (b r : AtomCollectionBuilder) (v : List (Option Vec3)), b.ColumnsSized → b.with_fractional_xyz v = Except.ok r →
        r.ColumnsSized) ∧
      (∀ (b r : AtomCollectionBuilder) (v : List ℕ), b.ColumnsSized → b.with_atom_ids v = Except.ok r →
        r.ColumnsSized) := by
  refine ⟨?_, ?_, ?_, ?_, ?_, ?_, ?_, ?_, ?_, ?_, ?_, ?_, ?_⟩
  · intro b v h
    unfold AtomCollectionBuilder.with_element_symbols
    rw [if_neg h]
  · intro b v h
    unfold AtomCollectionBuilder.with_atomic_nums
    rw [if_neg h]
  · intro b v h
    unfold AtomCollectionBuilder.with_xyz_coords
    rw [if_neg h]
  · intro b v h
    unfold AtomCollectionBuilder.with_fractional_xyz
    rw [if_neg h]
  · intro b v h
    unfold AtomCollectionBuilder.with_atom_ids
    rw [if_neg h]
  · intro b h
    unfold AtomCollectionBuilder.finish
    by_cases h1 : b.atomic_nums.isNone
    · exact ⟨"atomic_nums", by rw [if_pos h1],
        Or.inl ⟨rfl, Option.isNone_iff_eq_none.mp h1⟩⟩
    · rw [if_neg h1]
      by_cases h2 : b.element_symbols.isNone
      · exact ⟨"element_symbols", by rw [if_pos h2],
          Or.inr (Or.inl ⟨rfl, Option.isNone_iff_eq_none.mp h2⟩)⟩
      · rw [if_neg h2]
        by_cases h3 : b.xyz_coords.isNone
        · exact ⟨"xyz_coords", by rw [if_pos h3],
            Or.inr (Or.inr (Or.inl ⟨rfl, Option.isNone_iff_eq_none.mp h3⟩))⟩
        · rw [if_neg h3]
          by_cases h4 : b.fractional_xyz.isNone
          · exact ⟨"fractional_xyz", by rw [if_pos h4],
              Or.inr (Or.inr (Or.inr (Or.inl ⟨rfl, Option.isNone_iff_eq_none.mp h4⟩)))⟩
          · rw [if_neg h4]
            by_cases h5 : b.atom_ids.isNone
            · exact ⟨"atom_ids", by rw [if_pos h5],
                Or.inr (Or.inr (Or.inr (Or.inr ⟨rfl, Option.isNone_iff_eq_none.mp h5⟩)))⟩
            · exfalso
              simp only [Option.isNone_iff_eq_none] at h1 h2 h3 h4 h5
              rcases h with h | h | h | h | h <;> simp_all
  · intro b r hsized hfin
    unfold AtomCollectionBuilder.finish at hfin
    by_cases h1 : b.atomic_nums.isNone
    · rw [if_pos h1] at hfin; exact absurd hfin (by simp)
    · rw [if_neg h1] at hfin
      by_cases h2 : b.element_symbols.isNone
      · rw [if_pos h2] at hfin; exact absurd hfin (by simp)
      · rw [if_neg h2] at hfin
        by_cases h3 : b.xyz_coords.isNone
        · rw [if_pos h3] at hfin; exact absurd hfin (by simp)
        · rw [if_neg h3] at hfin
          by_cases h4 : b.fractional_xyz.isNone
          · rw [if_pos h4] at hfin; exact absurd hfin (by simp)
          · rw [if_neg h4] at hfin
            by_cases h5 : b.atom_ids.isNone
            · rw [if_pos h5] at hfin; exact absurd hfin (by simp)
            · rw [if_neg h5] at hfin
              have hrb : r = b := by
                cases hfin
                rfl
              subst hrb
              simp only [Option.isNone_iff_eq_none, ← Option.ne_none_iff_exists'] at h1 h2 h3 h4 h5
              obtain ⟨es, hes⟩ := Option.ne_none_iff_exists'.mp h1
              obtain ⟨sy, hsy⟩ := Option.ne_none_iff_exists'.mp h2
              obtain ⟨xy, hxy⟩ := Option.ne_none_iff_exists'.mp h3
              obtain ⟨fr, hfr⟩ := Option.ne_none_iff_exists'.mp h4
              obtain ⟨ids, hids⟩ := Option.ne_none_iff_exists'.mp h5
              obtain ⟨c1, c2, c3, c4, c5⟩ := hsized
              refine ⟨⟨sy, es, xy, fr, ids, r.size⟩, ?_, ?_, ?_, ?_, ?_, ?_⟩
              · unfold AtomCollectionBuilder.build
                rw [hes, hsy, hxy, hfr, hids]
              · exact c1 sy hsy
              · exact c2 es hes
              · exact c3 xy hxy
              · exact c4 fr hfr
              · exact c5 ids hids
  · intro size
    refine ⟨?_, ?_, ?_, ?_, ?_⟩ <;> intro v h <;> simp [AtomCollectionBuilder.new] at h
  · intro b r v hsized hok
    unfold AtomCollectionBuilder.with_element_symbols at hok
    by_cases h : v.length = b.size
    · rw [if_pos h] at hok
      cases hok
      obtain ⟨c1, c2, c3, c4, c5⟩ := hsized
      exact ⟨fun w hw => by cases hw; exact h, c2, c3, c4, c5⟩
    · rw [if_neg h] at hok; cases hok
  · intro b r v hsized hok
    unfold AtomCollectionBuilder.with_atomic_nums at hok
    by_cases h : v.length = b.size
    · rw [if_pos h] at hok
      cases hok
      obtain ⟨c1, c2, c3, c4, c5⟩ := hsized
      exact ⟨c1, fun w hw => by cases hw; exact h, c3, c4, c5⟩
    · rw [if_neg h] at hok; cases hok
  · intro b r v hsized hok
    unfold AtomCollectionBuilder.with_xyz_coords at hok
    by_cases h : v.length = b.size
    · rw [if_pos h] at hok
      cases hok
      obtain ⟨c1, c2, c3, c4, c5⟩ := hsized
      exact ⟨c1, c2, fun w hw => by cases hw; exact h, c4, c5⟩
    · rw [if_neg h] at hok; cases hok
  · intro b r v hsized hok
    unfold AtomCollectionBuilder.with_fractional_xyz at hok
    by_cases h : v.length = b.size
    · rw [if_pos h] at hok
      cases hok
      obtain ⟨c1, c2, c3, c4, c5⟩ := hsized
      exact ⟨c1, c2, c3, fun w hw => by cases hw; exact h, c5⟩
    · rw [if_neg h] at hok; cases hok
  · intro b r v hsized hok
    unfold AtomCollectionBuilder.with_atom_ids at hok
    by_cases h : v.length = b.size
    · rw [if_pos h] at hok
      cases hok
      obtain ⟨c1, c2, c3, c4, c5⟩ := hsized
      exact ⟨c1, c2, c3, c4, fun w hw => by cases hw; exact h⟩
    · rw [if_neg h] at hok; cases hok

/-- c7 witness — the builder theorem instantiated at a concrete builder of
declared size 1: supplying a two-element symbol column fails with
`InconsistentSize 2 1`, and `finish` on the fresh builder fails with a
`MissingField` naming an absent column. -/
theorem c7_builder_rejects_mismatch_and_missing_witness :
    ((["H", "O"].length ≠ (AtomCollectionBuilder.new 1).size) ∧
        (AtomCollectionBuilder.new 1).with_element_symbols ["H", "O"] =
          Except.error (AtomCollectionBuildingError.InconsistentSize 2 1)) ∧
      ∃ name,
        (AtomCollectionBuilder.new 1).finish =
            Except.error (AtomCollectionBuildingError.MissingField name) ∧
          columnIsAbsent (AtomCollectionBuilder.new 1) name :=
  ⟨⟨by decide,
      c7_builder_rejects_mismatch_and_missing.1 (AtomCollectionBuilder.new 1) ["H", "O"]
        (by decide)⟩,
    c7_builder_rejects_mismatch_and_missing.2.2.2.2.2.1 (AtomCollectionBuilder.new 1)
      (Or.inl rfl)⟩

/-- C5 counterexample — the claim says a bucket that contains other
attributes (such as `PeriodicType`) but lacks `A3`, `B3`, `C3` yields no
lattice rather than failing; the code only returns `None` for an *empty*
bucket, and for the non-empty bucket `["I PeriodicType 100"]` it evaluates
`attr_table.get("A3").unwrap()` on a missing key, a panic (`none`) — not the
"no lattice" outcome `some none` the claim requires. -/
theorem c5_lattice_extraction_panics_on_periodictype_only_bucket :
    parse_lattice_vectors [periodicTypeItem] = none ∧
      parse_lattice_vectors [periodicTypeItem] ≠ some none := by
  refine ⟨?_, ?_⟩ <;> decide

/-- C5 amended — lattice-vector extraction yields no lattice only for an
*empty* attribute bucket; a non-empty bucket whose table lacks the key `A3`
panics on the `unwrap` (`none`); and when the keys are present and parse,
the three triples are assembled column-wise into the basis matrix
(`Matrix3::from_columns(&[vec_a, vec_b, vec_c])`). -/
theorem c5_lattice_extraction_empty_none_else_unwrap :
    (parse_lattice_vectors [] = some none) ∧
      (∀ attrs table, attrs ≠ [] → hashmap_attrs attrs = some table →
        hashGet table a3Key = none → parse_lattice_vectors attrs = none) ∧
      (∀ attrs table sa ra va sb rb vb sc rc vc, attrs ≠ [] →
        hashmap_attrs attrs = some table →
        hashGet table a3Key = some sa → parse_vector sa = some (ra, va) →
        hashGet table b3Key = some sb → parse_vector sb = some (rb, vb) →
        hashGet table c3Key = some sc → parse_vector sc = some (rc, vc) →
        parse_lattice_vectors attrs = some (some (Mat3.fromColumns va vb vc))) := by
  refine ⟨by decide, ?_, ?_⟩
  · intro attrs table hne htab hget
    rcases attrs with _ | ⟨a, as⟩
    · exact absurd rfl hne
    · simp only [parse_lattice_vectors, List.isEmpty_cons, Bool.false_eq_true, if_false, htab,
        hget]
  · intro attrs table sa ra va sb rb vb sc rc vc hne htab hga hpa hgb hpb hgc hpc
    rcases attrs with _ | ⟨a, as⟩
    · exact absurd rfl hne
    · simp only [parse_lattice_vectors, List.isEmpty_cons, Bool.false_eq_true, if_false, htab,
        hga, hpa, hgb, hpb, hgc, hpc]

/-- c5 witness — the amended theorem applied to the concrete buckets: the
`PeriodicType`-only bucket panics, and the full cubic bucket assembles the
three parsed columns. -/
theorem c5_lattice_extraction_empty_none_else_unwrap_witness :
    (([periodicTypeItem] : List (List Char)) ≠ [] ∧
        hashmap_attrs [periodicTypeItem] = some ((hashmap_attrs [periodicTypeItem]).get!) ∧
        hashGet ((hashmap_attrs [periodicTypeItem]).get!) a3Key = none ∧
        parse_lattice_vectors [periodicTypeItem] = none) ∧
      (fullLatticeBucket ≠ [] ∧
        hashmap_attrs fullLatticeBucket = some ((hashmap_attrs fullLatticeBucket).get!) ∧
        hashGet ((hashmap_attrs fullLatticeBucket).get!) a3Key = some a3Item ∧
        parse_vector a3Item = some ((parse_vector a3Item).get!) ∧
        parse_lattice_vectors fullLatticeBucket =
          some
            (some
              (Mat3.fromColumns ((parse_vector a3Item).get!).2 ((parse_vector b3Item).get!).2
                ((parse_vector c3Item).get!).2))) :=
  ⟨⟨by decide, rfl, by decide,
      c5_lattice_extraction_empty_none_else_unwrap.2.1 [periodicTypeItem]
        ((hashmap_attrs [periodicTypeItem]).get!) (by decide) rfl (by decide)⟩,
    ⟨by decide, rfl, by decide, rfl,
      c5_lattice_extraction_empty_none_else_unwrap.2.2 fullLatticeBucket
        ((hashmap_attrs fullLatticeBucket).get!) a3Item ((parse_vector a3Item).get!).1
        ((parse_vector a3Item).get!).2 b3Item ((parse_vector b3Item).get!).1
        ((parse_vector b3Item).get!).2 c3Item ((parse_vector c3Item).get!).1
        ((parse_vector c3Item).get!).2 (by decide) rfl (by decide) rfl (by decide) rfl
        (by decide) rfl⟩⟩

/-- C6 counterexample — the claim says that when the field loop exhausts and
the remainder does not match the model terminator, parsing fails with a
recoverable structural error value carrying the remainder; `analyze`
(state_machine/mod.rs line 235) instead `unwrap`s the failed `tag(")")` —
a panic (`none`), and its return type `MsiParser<Analyzed>` has no error
channel at all.  On the input `"junk"` the loop extracts nothing and the
terminator check fails: the parse panics. -/
theorem c6_analyze_panics_on_missing_terminator :
    analyze junkModelInput = none := by decide

/-- C6 amended — `analyze` returns no value exactly when the text left after
the field-extraction loop does not begin with the model terminator `")"`
(the check is `tag(")")`, a begins-with match): the failure is the panic of
the `unwrap`, not an error value carrying the remainder. -/
theorem c6_analyze_none_iff_terminator_check_fails (input : List Char) :
    (analyze input = none ↔
        startsWithL rparenL (analyzeGo (input.length + 1) input emptyBuckets).1 = false) ∧
      (analyze input = some (analyzeGo (input.length + 1) input emptyBuckets).2 ↔
        startsWithL rparenL (analyzeGo (input.length + 1) input emptyBuckets).1 = true) := by
  unfold analyze model_end ptag
  rcases h : startsWithL rparenL (analyzeGo (input.length + 1) input emptyBuckets).1 with _ | _
  · simp [h]
  · simp [h]

/-! ## Lemmas about the combinators (toward the literal-scanner claim) -/

theorem takeWhile_all_append {f : Char → Bool} {l1 l2 : List Char}
    (h1 : ∀ c ∈ l1, f c = true) (h2 : ∀ c, l2.head? = some c → f c = false) :
    (l1 ++ l2).takeWhile f = l1 ∧ (l1 ++ l2).dropWhile f = l2 := by
  induction l1 with
  | nil =>
    cases l2 with
    | nil => simp
    | cons c cs =>
      have := h2 c rfl
      simp [List.takeWhile_cons, List.dropWhile_cons, this]
  | cons a as ih =>
    have ha := h1 a (by simp)
    have ih2 := ih (fun c hc => h1 c (by simp [hc]))
    simp [List.takeWhile_cons, List.dropWhile_cons, ha, ih2.1, ih2.2]

theorem allDigits_head {d : List Char} (hd : AllDigits d) :
    ∃ c cs, d = c :: cs ∧ c.isDigit = true := by
  obtain ⟨hne, hall⟩ := hd
  cases d with
  | nil => exact absurd rfl hne
  | cons c cs => exact ⟨c, cs, rfl, hall c (by simp)⟩

theorem decimal_append {d x : List Char} (hd : AllDigits d) (hx : HeadNotDigit x) :
    decimal (d ++ x) = some (x, d) := by
  have h := takeWhile_all_append hd.2 hx
  obtain ⟨c, cs, hdc, hcd⟩ := allDigits_head hd
  unfold decimal
  rw [h.1, h.2]
  subst hdc
  simp

theorem decimal_some {input r s : List Char} (h : decimal input = some (r, s)) :
    AllDigits s ∧ input = s ++ r := by
  unfold decimal at h
  by_cases he : (input.takeWhile Char.isDigit).isEmpty
  · rw [if_pos he] at h
    cases h
  · rw [if_neg he] at h
    cases h
    refine ⟨⟨by simpa [List.isEmpty_iff] using he, ?_⟩, ?_⟩
    · intro c hc
      exact List.mem_takeWhile_imp hc
    · exact (List.takeWhile_append_dropWhile _ _).symm

theorem decimal_isSome {c : Char} {cs : List Char} (hc : c.isDigit = true) :
    (decimal (c :: cs)).isSome = true := by
  unfold decimal
  simp [List.takeWhile_cons, hc]

theorem pchar_some {c : Char} {input r : List Char} {v : Char}
    (h : pchar c input = some (r, v)) : input = c :: r ∧ v = c := by
  cases input with
  | nil => simp [pchar] at h
  | cons d ds =>
    simp only [pchar] at h
    split at h
    · injection h with h1
      injection h1 with h2 h3
      subst h2
      subst h3
      rename_i hdc
      have hd : d = c := by simpa using hdc
      subst hd
      exact ⟨rfl, rfl⟩
    · cases h

theorem pchar_cons {c : Char} {rest : List Char} : pchar c (c :: rest) = some (rest, c) := by
  simp [pchar]

theorem one_of_some {s input r : List Char} {v : Char}
    (h : one_of s input = some (r, v)) : input = v :: r ∧ s.contains v = true := by
  cases input with
  | nil => simp [one_of] at h
  | cons d ds =>
    simp only [one_of] at h
    split at h
    · injection h with h1
      injection h1 with h2 h3
      subst h2
      subst h3
      rename_i hd
      exact ⟨rfl, hd⟩
    · cases h

theorem one_of_cons {s : List Char} {c : Char} {rest : List Char}
    (h : s.contains c = true) : one_of s (c :: rest) = some (rest, c) := by
  simp only [one_of]
  rw [if_pos h]

theorem one_of_cons_neg {s : List Char} {c : Char} {rest : List Char}
    (h : s.contains c = false) : one_of s (c :: rest) = none := by
  simp only [one_of]
  rw [if_neg (by simpa using h)]

theorem popt_some {α : Type} {p : NomParser α} {input r : List Char} {v : Option α}
    (h : popt p input = some (r, v)) :
    (v = none ∧ r = input) ∨ ∃ w, v = some w ∧ p input = some (r, w) := by
  unfold popt at h
  cases hp : p input with
  | none =>
    rw [hp] at h
    cases h
    exact Or.inl ⟨rfl, rfl⟩
  | some x =>
    rw [hp] at h
    cases h
    exact Or.inr ⟨x.2, rfl, rfl⟩

theorem popt_isSome {α : Type} (p : NomParser α) (input : List Char) :
    (popt p input).isSome = true := by
  unfold popt
  cases p input <;> simp

theorem popt_of_none {α : Type} {p : NomParser α} {input : List Char} (h : p input = none) :
    popt p input = some (input, none) := by
  unfold popt
  rw [h]

theorem popt_of_some {α : Type} {p : NomParser α} {input r : List Char} {v : α}
    (h : p input = some (r, v)) : popt p input = some (r, some v) := by
  unfold popt
  rw [h]

theorem pand_some {α β : Type} {p : NomParser α} {q : NomParser β} {input r : List Char}
    {vw : α × β} (h : pand p q input = some (r, vw)) :
    ∃ m, p input = some (m, vw.1) ∧ q m = some (r, vw.2) := by
  unfold pand at h
  cases hp : p input with
  | none =>
    rw [hp] at h
    cases h
  | some x =>
    obtain ⟨m, v⟩ := x
    rw [hp] at h
    dsimp only at h
    cases hq : q m with
    | none =>
      rw [hq] at h
      cases h
    | some y =>
      obtain ⟨m2, w⟩ := y
      rw [hq] at h
      dsimp only at h
      injection h with h1
      injection h1 with h2 h3
      subst h2
      subst h3
      exact ⟨m, rfl, hq⟩

theorem pand_mk {α β : Type} {p : NomParser α} {q : NomParser β} {input m r : List Char}
    {v : α} {w : β} (hp : p input = some (m, v)) (hq : q m = some (r, w)) :
    pand p q input = some (r, (v, w)) := by
  unfold pand
  rw [hp]
  dsimp only
  rw [hq]

theorem preceded_some {α β : Type} {p : NomParser α} {q : NomParser β} {input r : List Char}
    {v : β} (h : preceded p q input = some (r, v)) :
    ∃ m w, p input = some (m, w) ∧ q m = some (r, v) := by
  unfold preceded at h
  cases hp : p input with
  | none =>
    rw [hp] at h
    cases h
  | some x =>
    obtain ⟨m, w⟩ := x
    rw [hp] at h
    dsimp only at h
    exact ⟨m, w, rfl, h⟩

theorem preceded_mk {α β : Type} {p : NomParser α} {q : NomParser β} {input m r : List Char}
    {v : α} {w : β} (hp : p input = some (m, v)) (hq : q m = some (r, w)) :
    preceded p q input = some (r, w) := by
  unfold preceded
  rw [hp]
  dsimp only
  rw [hq]

theorem take_len_append (X r : List Char) :
    (X ++ r).take ((X ++ r).length - r.length) = X := by
  have : (X ++ r).length - r.length = X.length := by
    simp [List.length_append]
  rw [this]
  exact List.take_left X r

theorem precognize_of {α : Type} {p : NomParser α} {input X rest : List Char} {v : α}
    (hp : p input = some (rest, v)) (hX : input = X ++ rest) :
    precognize p input = some (rest, X) := by
  unfold precognize
  rw [hp]
  subst hX
  dsimp only
  rw [take_len_append]

theorem precognize_some {α : Type} {p : NomParser α} {input r span : List Char}
    (h : precognize p input = some (r, span)) :
    ∃ v, p input = some (r, v) ∧ span = input.take (input.length - r.length) := by
  unfold precognize at h
  cases hp : p input with
  | none =>
    rw [hp] at h
    cases h
  | some x =>
    obtain ⟨m, v⟩ := x
    rw [hp] at h
    dsimp only at h
    injection h with h1
    injection h1 with h2 h3
    subst h2
    subst h3
    exact ⟨v, rfl, rfl⟩

theorem palt_some {α : Type} {p q : NomParser α} {input : List Char}
    {x : List Char × α} (h : palt p q input = some x) :
    p input = some x ∨ (p input = none ∧ q input = some x) := by
  unfold palt at h
  cases hp : p input with
  | none =>
    rw [hp] at h
    exact Or.inr ⟨rfl, h⟩
  | some y =>
    rw [hp] at h
    exact Or.inl h

theorem palt_isSome {α : Type} (p q : NomParser α) (input : List Char) :
    (palt p q input).isSome = ((p input).isSome || (q input).isSome) := by
  unfold palt
  cases p input <;> simp

theorem pchar_cons_neg {c d : Char} {ds : List Char} (h : d ≠ c) :
    pchar c (d :: ds) = none := by
  simp only [pchar]
  rw [if_neg (by simpa using h)]

theorem precognize_isSome {α : Type} {p : NomParser α} {input : List Char}
    (h : (p input).isSome = true) : (precognize p input).isSome = true := by
  unfold precognize
  cases hp : p input with
  | none => rw [hp] at h; cases h
  | some x => simp

theorem expChars_mem {c : Char} (h : expChars.contains c = true) : c = 'e' ∨ c = 'E' := by
  simp [expChars] at h
  exact h

theorem signChars_mem {c : Char} (h : signChars.contains c = true) : c = '+' ∨ c = '-' := by
  simp [signChars] at h
  exact h

theorem signChars_not_digit {c : Char} (h : c.isDigit = true) :
    signChars.contains c = false := by
  by_contra hc
  rcases signChars_mem (by simpa using hc) with h1 | h1 <;> subst h1 <;> simp at h

theorem expChars_contains {c : Char} (h : c = 'e' ∨ c = 'E') :
    expChars.contains c = true := by
  rcases h with h | h <;> subst h <;> decide

theorem digit_ne_dot {c : Char} (h : c.isDigit = true) : c.isDigit = true := h

/-- expTail_some — inversion of the complete-exponent chain
`tuple((one_of("eE"), opt(one_of("+-")), decimal))` shared by the first two
branches of `float`. -/
theorem expTail_some {input r : List Char} {v : Char × (Option Char × List Char)}
    (h : pand (one_of expChars) (pand (popt (one_of signChars)) decimal) input = some (r, v)) :
    ∃ e, ExpClause e ∧ input = e ++ r := by
  obtain ⟨m1, h1, h2⟩ := pand_some h
  obtain ⟨hin, hcv⟩ := one_of_some h1
  obtain ⟨m2, h3, h4⟩ := pand_some h2
  obtain ⟨hd, hm2⟩ := decimal_some h4
  rcases popt_some h3 with ⟨_, hr⟩ | ⟨w, _, hw⟩
  · subst hr
    refine ⟨v.1 :: ([] ++ v.2.2), ⟨v.1, [], v.2.2, expChars_mem hcv, Or.inl rfl, hd, rfl⟩, ?_⟩
    rw [hin, hm2]
    simp
  · obtain ⟨hm1, hsw⟩ := one_of_some hw
    have hsgn : [w] = ['+'] ∨ [w] = ['-'] := by
      rcases signChars_mem hsw with h | h <;> subst h <;> simp
    refine ⟨v.1 :: ([w] ++ v.2.2),
      ⟨v.1, [w], v.2.2, expChars_mem hcv, Or.inr hsgn, hd, rfl⟩, ?_⟩
    rw [hin, hm1, hm2]
    simp

/-- floatCase1_some — a successful first branch consumed a `DotLeadShape`
prefix. -/
theorem floatCase1_some {input rest span : List Char}
    (h : floatCase1 input = some (rest, span)) :
    input = span ++ rest ∧ DotLeadShape span := by
  obtain ⟨v, hv, hspan⟩ := precognize_some h
  obtain ⟨m1, h1, h2⟩ := pand_some hv
  obtain ⟨hin, _⟩ := pchar_some h1
  obtain ⟨m2, h3, h4⟩ := pand_some h2
  obtain ⟨hd, hm1⟩ := decimal_some h3
  rcases popt_some h4 with ⟨_, hr⟩ | ⟨w, _, hw⟩
  · subst hr
    have hX : input = ('.' :: (v.2.1 ++ [])) ++ rest := by
      rw [hin, hm1]
      simp
    have hs : span = '.' :: (v.2.1 ++ []) := by
      rw [hspan, hX, take_len_append]
    exact ⟨by rw [hs, hX], ⟨v.2.1, [], hd, Or.inl rfl, hs⟩⟩
  · obtain ⟨e, he, hm2⟩ := expTail_some hw
    have hX : input = ('.' :: (v.2.1 ++ e)) ++ rest := by
      rw [hin, hm1, hm2]
      simp
    have hs : span = '.' :: (v.2.1 ++ e) := by
      rw [hspan, hX, take_len_append]
    exact ⟨by rw [hs, hX], ⟨v.2.1, e, hd, Or.inr he, hs⟩⟩

/-- floatCase2_some — a successful second branch consumed an `ExpMandShape`
prefix. -/
theorem floatCase2_some {input rest span : List Char}
    (h : floatCase2 input = some (rest, span)) :
    input = span ++ rest ∧ ExpMandShape span := by
  obtain ⟨v, hv, hspan⟩ := precognize_some h
  obtain ⟨m1, h1, h2⟩ := pand_some hv
  obtain ⟨hi, hin⟩ := decimal_some h1
  obtain ⟨m2, h3, h4⟩ := pand_some h2
  obtain ⟨e, he, hm2⟩ := expTail_some h4
  rcases popt_some h3 with ⟨_, hr⟩ | ⟨w, _, hw⟩
  · subst hr
    have hX : input = (v.1 ++ ([] ++ e)) ++ rest := by
      rw [hin, hm2]
      simp
    have hs : span = v.1 ++ ([] ++ e) := by
      rw [hspan, hX, take_len_append]
    exact ⟨by rw [hs, hX], ⟨v.1, [], e, hi, Or.inl rfl, he, hs⟩⟩
  · obtain ⟨mf, wf, hwc, hwd⟩ := preceded_some hw
    obtain ⟨hm1, _⟩ := pchar_some hwc
    obtain ⟨hfd, hmf⟩ := decimal_some hwd
    have hX : input = (v.1 ++ (('.' :: w) ++ e)) ++ rest := by
      rw [hin, hm1, hmf, hm2]
      simp
    have hs : span = v.1 ++ (('.' :: w) ++ e) := by
      rw [hspan, hX, take_len_append]
    exact ⟨by rw [hs, hX], ⟨v.1, '.' :: w, e, hi, Or.inr ⟨w, hfd, rfl⟩, he, hs⟩⟩

/-- floatCase3_some — a successful third branch consumed a `SignDotShape`
prefix. -/
theorem floatCase3_some {input rest span : List Char}
    (h : floatCase3 input = some (rest, span)) :
    input = span ++ rest ∧ SignDotShape span := by
  obtain ⟨v, hv, hspan⟩ := precognize_some h
  obtain ⟨m1, h1, h2⟩ := pand_some hv
  obtain ⟨m2, h3, h4⟩ := pand_some h2
  obtain ⟨hi, hm1⟩ := decimal_some h3
  obtain ⟨m3, h5, h6⟩ := pand_some h4
  obtain ⟨hm2, _⟩ := pchar_some h5
  obtain ⟨m4, h7, h8⟩ := pand_some h6
  obtain ⟨m5, h9, h10⟩ := pand_some h8
  obtain ⟨m6, h11, h12⟩ := pand_some h10
  -- sign
  have hsg : ∃ sg, OptSign sg ∧ input = sg ++ m1 := by
    rcases popt_some h1 with ⟨_, hr⟩ | ⟨w, _, hw⟩
    · exact ⟨[], Or.inl rfl, by rw [hr]; simp⟩
    · obtain ⟨hm, hsw⟩ := one_of_some hw
      refine ⟨[w], ?_, by rw [hm]; simp⟩
      rcases signChars_mem hsw with h | h <;> subst h <;> simp [OptSign]
  obtain ⟨sg, hsgOpt, hinsg⟩ := hsg
  -- optional fraction digits
  have hf : ∃ f, (∀ c ∈ f, c.isDigit = true) ∧ m3 = f ++ m4 := by
    rcases popt_some h7 with ⟨_, hr⟩ | ⟨w, _, hw⟩
    · refine ⟨[], ?_, ?_⟩
      · intro c hc
        cases hc
      · rw [hr]
        simp
    · obtain ⟨hfd, hm⟩ := decimal_some hw
      exact ⟨w, hfd.2, hm⟩
  obtain ⟨f, hfall, hm3⟩ := hf
  -- optional exponent marker
  have heo : ∃ e, (e = [] ∨ e = ['e'] ∨ e = ['E']) ∧ m4 = e ++ m5 := by
    rcases popt_some h9 with ⟨_, hr⟩ | ⟨w, _, hw⟩
    · exact ⟨[], Or.inl rfl, by rw [hr]; simp⟩
    · obtain ⟨hm, hcw⟩ := one_of_some hw
      refine ⟨[w], ?_, by rw [hm]; simp⟩
      rcases expChars_mem hcw with h | h <;> subst h <;> simp
  obtain ⟨e3, he3, hm4⟩ := heo
  -- optional second sign
  have hsg2 : ∃ sg2, OptSign sg2 ∧ m5 = sg2 ++ m6 := by
    rcases popt_some h11 with ⟨_, hr⟩ | ⟨w, _, hw⟩
    · exact ⟨[], Or.inl rfl, by rw [hr]; simp⟩
    · obtain ⟨hm, hsw⟩ := one_of_some hw
      refine ⟨[w], ?_, by rw [hm]; simp⟩
      rcases signChars_mem hsw with h | h <;> subst h <;> simp [OptSign]
  obtain ⟨sg2, hsg2Opt, hm5⟩ := hsg2
  -- optional trailing digits
  have hd : ∃ d, (∀ c ∈ d, c.isDigit = true) ∧ m6 = d ++ rest := by
    rcases popt_some h12 with ⟨_, hr⟩ | ⟨w, _, hw⟩
    · refine ⟨[], ?_, ?_⟩
      · intro c hc
        cases hc
      · rw [hr]
        simp
    · obtain ⟨hfd, hm⟩ := decimal_some hw
      exact ⟨w, hfd.2, hm⟩
  obtain ⟨d, hdall, hm6⟩ := hd
  have hX : input = (sg ++ (v.2.1 ++ '.' :: (f ++ (e3 ++ (sg2 ++ d))))) ++ rest := by
    rw [hinsg, hm1, hm2, hm3, hm4, hm5, hm6]
    simp
  have hs : span = sg ++ (v.2.1 ++ '.' :: (f ++ (e3 ++ (sg2 ++ d)))) := by
    rw [hspan, hX, take_len_append]
  exact ⟨by rw [hs, hX],
    ⟨sg, v.2.1, f, e3, sg2, d, hsgOpt, hi, hfall, he3, hsg2Opt, hdall, hs⟩⟩

/-- floatCase1_isSome — any input beginning with `.` and a digit makes the
first branch succeed (its trailing exponent part is optional). -/
theorem floatCase1_isSome (d x : List Char) (hd : AllDigits d) :
    (floatCase1 (('.' :: d) ++ x)).isSome = true := by
  obtain ⟨c, cs, hdc, hcd⟩ := allDigits_head hd
  have h1 : pchar '.' ('.' :: (d ++ x)) = some (d ++ x, '.') := pchar_cons
  have h2 : (decimal (d ++ x)).isSome = true := by
    subst hdc
    simpa using @decimal_isSome c (cs ++ x) hcd
  obtain ⟨y, hy⟩ := Option.isSome_iff_exists.mp h2
  obtain ⟨r2, dv⟩ := y
  obtain ⟨z, hz⟩ := Option.isSome_iff_exists.mp
    (popt_isSome (pand (one_of expChars) (pand (popt (one_of signChars)) decimal)) r2)
  obtain ⟨r3, zv⟩ := z
  have hchain := pand_mk h1 (pand_mk hy hz)
  apply precognize_isSome
  rw [List.cons_append, hchain]
  rfl

/-- floatCase2_isSome — any input beginning with a full second-branch shape
(digits, optional fraction, complete exponent) makes the second branch
succeed. -/
theorem floatCase2_isSome (i f sg d x : List Char) (ic : Char)
    (hi : AllDigits i) (hf : f = [] ∨ ∃ fd, AllDigits fd ∧ f = '.' :: fd)
    (hc : ic = 'e' ∨ ic = 'E') (hsg : OptSign sg) (hd : AllDigits d) :
    (floatCase2 (i ++ (f ++ (ic :: (sg ++ (d ++ x)))))).isSome = true := by
  have hicd : ic.isDigit = false := by
    rcases hc with h | h <;> subst h <;> decide
  have hnd1 : HeadNotDigit (f ++ (ic :: (sg ++ (d ++ x)))) := by
    rcases hf with hfe | ⟨fd, _, hfd⟩
    · subst hfe
      intro c0 hc0
      injection hc0 with h0
      subst h0
      exact hicd
    · subst hfd
      intro c0 hc0
      injection hc0 with h0
      subst h0
      decide
  have h1 : decimal (i ++ (f ++ (ic :: (sg ++ (d ++ x))))) =
      some (f ++ (ic :: (sg ++ (d ++ x))), i) := decimal_append hi hnd1
  have h2 : popt (preceded (pchar '.') decimal) (f ++ (ic :: (sg ++ (d ++ x)))) =
      some (ic :: (sg ++ (d ++ x)), match f with | [] => none | _ => some f.tail) := by
    rcases hf with hfe | ⟨fd, hfdall, hfd⟩
    · subst hfe
      have : preceded (pchar '.') decimal (ic :: (sg ++ (d ++ x))) = none := by
        unfold preceded
        rw [pchar_cons_neg (by rcases hc with h | h <;> subst h <;> decide)]
      simpa using popt_of_none this
    · subst hfd
      have hnd2 : HeadNotDigit (ic :: (sg ++ (d ++ x))) := by
        intro c0 hc0
        injection hc0 with h0
        subst h0
        exact hicd
      have hdec : decimal (fd ++ (ic :: (sg ++ (d ++ x)))) =
          some (ic :: (sg ++ (d ++ x)), fd) := decimal_append hfdall hnd2
      have hpr : preceded (pchar '.') decimal (('.' :: fd) ++ (ic :: (sg ++ (d ++ x)))) =
          some (ic :: (sg ++ (d ++ x)), fd) := by
        rw [List.cons_append]
        exact preceded_mk pchar_cons hdec
      simpa using popt_of_some hpr
  have h3 : one_of expChars (ic :: (sg ++ (d ++ x))) = some (sg ++ (d ++ x), ic) :=
    one_of_cons (expChars_contains hc)
  obtain ⟨c0, cs0, hdc0, hcd0⟩ := allDigits_head hd
  have h4 : ∃ v4, popt (one_of signChars) (sg ++ (d ++ x)) = some (d ++ x, v4) := by
    rcases hsg with hs | hs | hs
    · subst hs
      refine ⟨none, ?_⟩
      have : one_of signChars (d ++ x) = none := by
        subst hdc0
        rw [List.cons_append]
        exact one_of_cons_neg (signChars_not_digit hcd0)
      simpa using popt_of_none this
    · subst hs
      refine ⟨some '+', ?_⟩
      have : one_of signChars ('+' :: (d ++ x)) = some (d ++ x, '+') :=
        one_of_cons (by decide)
      simpa using popt_of_some this
    · subst hs
      refine ⟨some '-', ?_⟩
      have : one_of signChars ('-' :: (d ++ x)) = some (d ++ x, '-') :=
        one_of_cons (by decide)
      simpa using popt_of_some this
  obtain ⟨v4, h4⟩ := h4
  have h5 : (decimal (d ++ x)).isSome = true := by
    subst hdc0
    simpa using @decimal_isSome c0 (cs0 ++ x) hcd0
  obtain ⟨y, hy⟩ := Option.isSome_iff_exists.mp h5
  obtain ⟨r5, dv⟩ := y
  have hchain := pand_mk h1 (pand_mk h2 (pand_mk h3 (pand_mk h4 hy)))
  apply precognize_isSome
  rw [hchain]
  rfl

/-- floatCase3_isSome — any input beginning with an optional sign, digits and
a decimal point makes the third branch succeed (its remaining pieces are all
optional). -/
theorem floatCase3_isSome (sg i x : List Char) (hsg : OptSign sg) (hi : AllDigits i) :
    (floatCase3 (sg ++ (i ++ ('.' :: x)))).isSome = true := by
  obtain ⟨c0, cs0, hdc0, hcd0⟩ := allDigits_head hi
  have h1 : ∃ v1, popt (one_of signChars) (sg ++ (i ++ ('.' :: x))) =
      some (i ++ ('.' :: x), v1) := by
    rcases hsg with hs | hs | hs
    · subst hs
      refine ⟨none, ?_⟩
      have : one_of signChars (i ++ ('.' :: x)) = none := by
        subst hdc0
        rw [List.cons_append]
        exact one_of_cons_neg (signChars_not_digit hcd0)
      simpa using popt_of_none this
    · subst hs
      refine ⟨some '+', ?_⟩
      have : one_of signChars ('+' :: (i ++ ('.' :: x))) = some (i ++ ('.' :: x), '+') :=
        one_of_cons (by decide)
      simpa using popt_of_some this
    · subst hs
      refine ⟨some '-', ?_⟩
      have : one_of signChars ('-' :: (i ++ ('.' :: x))) = some (i ++ ('.' :: x), '-') :=
        one_of_cons (by decide)
      simpa using popt_of_some this
  obtain ⟨v1, h1⟩ := h1
  have h2 : decimal (i ++ ('.' :: x)) = some ('.' :: x, i) := by
    refine decimal_append hi ?_
    intro c0h hc0h
    injection hc0h with h0
    subst h0
    decide
  have h3 : pchar '.' ('.' :: x) = some (x, '.') := pchar_cons
  obtain ⟨y4, hy4⟩ := Option.isSome_iff_exists.mp (popt_isSome decimal x)
  obtain ⟨r4, v4⟩ := y4
  obtain ⟨y5, hy5⟩ := Option.isSome_iff_exists.mp (popt_isSome (one_of expChars) r4)
  obtain ⟨r5, v5⟩ := y5
  obtain ⟨y6, hy6⟩ := Option.isSome_iff_exists.mp (popt_isSome (one_of signChars) r5)
  obtain ⟨r6, v6⟩ := y6
  obtain ⟨y7, hy7⟩ := Option.isSome_iff_exists.mp (popt_isSome decimal r6)
  obtain ⟨r7, v7⟩ := y7
  have hchain := pand_mk h1 (pand_mk h2 (pand_mk h3 (pand_mk hy4 (pand_mk hy5
    (pand_mk hy6 hy7)))))
  apply precognize_isSome
  rw [hchain]
  rfl

/-- C8 counterexample — the claim says every input beginning with a
floating-point literal that is "optionally signed, optionally missing the
integer part before the decimal point" is accepted; `-.42` is exactly such a
literal (signed and missing its integer part) and `float` rejects it: no
branch of the `alt` accepts a sign unless both an integer part and a decimal
point are present (`.42` unsigned succeeds, `-42.5` with its integer part
succeeds). -/
theorem c8_scanner_rejects_signed_missing_integer_part :
    float minusDot42 = none ∧ (float dot42).isSome = true ∧
      (float minus42dot5).isSome = true := by
  refine ⟨?_, ?_, ?_⟩ <;> decide

/-- C8 amended — the scanner accepts exactly the inputs beginning with one
of its three supported shapes (`.`+digits with optional complete exponent;
digits, optional fraction, mandatory complete exponent; optionally-signed
digits + `.` with three independently optional trailing pieces — a sign is
only supported together with an integer part and a decimal point): on
success the returned span is a prefix of the input of one of those shapes
and the remainder is the rest of the input; on any other input it fails,
consuming nothing (`Err` carries no partial consumption). -/
theorem c8_scanner_accepts_exactly_supported_shapes :
    (∀ input rest span, float input = some (rest, span) →
        input = span ++ rest ∧ FloatLiteralShape span) ∧
      (∀ s r, FloatLiteralShape s → (float (s ++ r)).isSome = true) ∧
      (∀ input, float input = none → ∀ s r, input = s ++ r → ¬ FloatLiteralShape s) := by
  have hcomp : ∀ s r, FloatLiteralShape s → (float (s ++ r)).isSome = true := by
    intro s r hs
    unfold float
    rw [palt_isSome, palt_isSome]
    rcases hs with h1 | h2 | h3
    · obtain ⟨d, e, hd, _, hse⟩ := h1
      subst hse
      have hassoc : ('.' :: (d ++ e)) ++ r = ('.' :: d) ++ (e ++ r) := by simp
      rw [hassoc, floatCase1_isSome d (e ++ r) hd]
      simp
    · obtain ⟨i, f, e, hi, hf, he, hse⟩ := h2
      obtain ⟨c, sg, dd, hc, hsg, hdd, hee⟩ := he
      subst hee
      subst hse
      have hassoc : (i ++ (f ++ (c :: (sg ++ dd)))) ++ r =
          i ++ (f ++ (c :: (sg ++ (dd ++ r)))) := by simp
      rw [hassoc, floatCase2_isSome i f sg dd r c hi hf hc hsg hdd]
      simp
    · obtain ⟨sg, i, f, e3, sg2, d, hsg, hi, _, _, _, _, hse⟩ := h3
      subst hse
      have hassoc : (sg ++ (i ++ '.' :: (f ++ (e3 ++ (sg2 ++ d))))) ++ r =
          sg ++ (i ++ ('.' :: ((f ++ (e3 ++ (sg2 ++ d))) ++ r))) := by simp
      rw [hassoc, floatCase3_isSome sg i ((f ++ (e3 ++ (sg2 ++ d))) ++ r) hsg hi]
      simp
  refine ⟨?_, hcomp, ?_⟩
  · intro input rest span h
    unfold float at h
    rcases palt_some h with h1 | ⟨_, h23⟩
    · obtain ⟨ha, hb⟩ := floatCase1_some h1
      exact ⟨ha, Or.inl hb⟩
    · rcases palt_some h23 with h2 | ⟨_, h3⟩
      · obtain ⟨ha, hb⟩ := floatCase2_some h2
        exact ⟨ha, Or.inr (Or.inl hb)⟩
      · obtain ⟨ha, hb⟩ := floatCase3_some h3
        exact ⟨ha, Or.inr (Or.inr hb)⟩
  · intro input hn s r hin hs
    subst hin
    have hsome := hcomp s r hs
    rw [hn] at hsome
    cases hsome

/-! ## Lemmas toward the order-independence claim -/

theorem startsWithL_append_self (pat x : List Char) : startsWithL pat (pat ++ x) = true := by
  induction pat with
  | nil => rfl
  | cons p ps ih => simp [startsWithL, ih]

theorem startsWithL_eq_append {pat l : List Char} (h : startsWithL pat l = true) :
    ∃ t, l = pat ++ t := by
  induction pat generalizing l with
  | nil => exact ⟨l, rfl⟩
  | cons p ps ih =>
    cases l with
    | nil => simp [startsWithL] at h
    | cons c cs =>
      simp only [startsWithL, Bool.and_eq_true, beq_iff_eq] at h
      obtain ⟨t, ht⟩ := ih h.2
      exact ⟨t, by rw [h.1, ht]; rfl⟩

theorem startsWithL_mem {pat l : List Char} (h : startsWithL pat l = true) :
    ∀ c ∈ pat, c ∈ l := by
  obtain ⟨t, ht⟩ := startsWithL_eq_append h
  intro c hc
  subst ht
  exact List.mem_append_left t hc

theorem ptag_append (t x : List Char) : ptag t (t ++ x) = some (x, t) := by
  unfold ptag
  rw [if_pos (startsWithL_append_self t x)]
  rw [List.drop_left]

theorem ptag_some {t input r v : List Char} (h : ptag t input = some (r, v)) :
    input = t ++ r ∧ v = t := by
  unfold ptag at h
  by_cases hs : startsWithL t input = true
  · rw [if_pos hs] at h
    obtain ⟨u, hu⟩ := startsWithL_eq_append hs
    subst hu
    rw [List.drop_left] at h
    injection h with h1
    injection h1 with h2 h3
    subst h2
    subst h3
    exact ⟨rfl, rfl⟩
  · rw [if_neg hs] at h
    cases h

theorem ptag_none {t input : List Char} (h : startsWithL t input = false) :
    ptag t input = none := by
  unfold ptag
  rw [if_neg (by simp [h])]

theorem space0_append {ind x : List Char} (h1 : ind.all is_nom_space = true)
    (h2 : ∀ c, x.head? = some c → is_nom_space c = false) :
    space0 (ind ++ x) = some (x, ind) := by
  have h := takeWhile_all_append (by simpa [List.all_eq_true] using h1) h2
  unfold space0
  rw [h.1, h.2]

theorem space1_cons {x : List Char} (h : ∀ c, x.head? = some c → is_nom_space c = false) :
    space1 (' ' :: x) = some (x, [' ']) := by
  have hh := @takeWhile_all_append is_nom_space [' '] x (by decide) h
  unfold space1
  rw [show (' ' :: x) = [' '] ++ x from rfl, hh.1, hh.2]
  rfl

theorem take_until_cons_neg {pat : List Char} {c : Char} {cs : List Char}
    (h : startsWithL pat (c :: cs) = false) :
    take_until pat (c :: cs) =
      match take_until pat cs with
      | some (rest, pre) => some (rest, c :: pre)
      | none => none := by
  conv_lhs => unfold take_until
  rw [if_neg (by simp [h])]

theorem take_until_start {pat l : List Char} (h : startsWithL pat l = true) :
    take_until pat l = some (l, []) := by
  cases l with
  | nil => unfold take_until; rw [if_pos h]
  | cons c cs => unfold take_until; rw [if_pos h]

theorem take_until_no_cr {pat l : List Char} (hpat : '\r' ∈ pat)
    (hl : '\r' ∉ l) : take_until pat l = none := by
  induction l with
  | nil =>
    unfold take_until
    rw [if_neg]
    intro hs
    cases pat with
    | nil => cases hpat
    | cons p ps => simp [startsWithL] at hs
  | cons c cs ih =>
    have hcs : '\r' ∉ cs := fun hm => hl (List.mem_cons_of_mem _ hm)
    have hs : startsWithL pat (c :: cs) = false := by
      by_contra hcon
      exact hl (startsWithL_mem (by simpa using hcon) '\r' hpat)
    rw [take_until_cons_neg hs, ih hcs]

theorem take_until_closeNl {c rest : List Char} (hc : '\n' ∉ c) :
    take_until closeNl (c ++ (')' :: '\n' :: rest)) = some (')' :: '\n' :: rest, c) := by
  induction c with
  | nil =>
    exact take_until_start (by simp [closeNl, startsWithL])
  | cons a as ih =>
    have has : '\n' ∉ as := fun hm => hc (List.mem_cons_of_mem _ hm)
    have hs : startsWithL closeNl (a :: (as ++ (')' :: '\n' :: rest))) = false := by
      simp only [closeNl, startsWithL]
      by_cases ha : a = ')'
      · subst ha
        cases as with
        | nil => simp [startsWithL]
        | cons b bs =>
          have hb : ¬ b = '\n' := fun he => hc (by rw [he]; exact List.mem_cons_of_mem _ (List.mem_cons_self _ _))
          simp only [List.cons_append, startsWithL]
          simp [beq_iff_eq]
          intro he
          exact absurd he.symm hb
      · simp [beq_iff_eq, ha]
        intro he
        exact absurd he.symm ha
    rw [List.cons_append, take_until_cons_neg hs, ih has]

theorem take_until_twoSp {content tail : List Char}
    (h : hasPat twoSpClose content = false) :
    take_until twoSpClose (content ++ (' ' :: ' ' :: ')' :: tail)) =
      some (' ' :: ' ' :: ')' :: tail, content) := by
  induction content with
  | nil => exact take_until_start (by simp [twoSpClose, startsWithL])
  | cons a as ih =>
    have has : hasPat twoSpClose as = false := by
      simp only [hasPat, Bool.or_eq_false_iff] at h
      exact h.2
    have hhead : startsWithL twoSpClose (a :: as) = false := by
      simp only [hasPat, Bool.or_eq_false_iff] at h
      exact h.1
    have hs : startsWithL twoSpClose (a :: (as ++ (' ' :: ' ' :: ')' :: tail))) = false := by
      by_cases ha : a = ' '
      · subst ha
        cases as with
        | nil => simp [twoSpClose, startsWithL]
        | cons b bs =>
          by_cases hb : b = ' '
          · subst hb
            cases bs with
            | nil => simp [twoSpClose, startsWithL]
            | cons d ds =>
              by_cases hd : d = ')'
              · subst hd
                simp [twoSpClose, startsWithL] at hhead
              · simp only [twoSpClose, List.cons_append, startsWithL]
                simp [beq_iff_eq]
                intro he
                exact absurd he.symm hd
          · simp only [twoSpClose, List.cons_append, startsWithL]
            simp [beq_iff_eq]
            intro he
            exact absurd he.symm hb
      · simp only [twoSpClose, List.cons_append, startsWithL]
        simp [beq_iff_eq]
        intro he
        exact absurd he.symm ha
    rw [List.cons_append, take_until_cons_neg hs, ih has]

theorem alpha1_append {ty x : List Char} (hne : ty ≠ []) (hty : ∀ c ∈ ty, c.isAlpha = true)
    (hx : ∀ c, x.head? = some c → c.isAlpha = false) :
    alpha1 (ty ++ x) = some (x, ty) := by
  have h := takeWhile_all_append hty hx
  unfold alpha1
  rw [h.1, h.2]
  cases ty with
  | nil => exact absurd rfl hne
  | cons c cs => simp

theorem line_ending_nl {rest : List Char} : line_ending ('\n' :: rest) = some (rest, ['\n']) :=
  rfl

/-- no_cr_renderBlock — a well-formed block's text contains no `\r`. -/
theorem no_cr_renderBlock {bl : MsiBlock} (h : wfBlock bl = true) :
    '\r' ∉ renderBlock bl := by
  cases bl with
  | attr ind c =>
    simp only [wfBlock, Bool.and_eq_true] at h
    obtain ⟨⟨⟨⟨hind, _⟩, _⟩, _⟩, hcr⟩ := h
    simp only [Bool.not_eq_true'] at hcr
    intro hm
    simp only [renderBlock, List.mem_append, List.mem_cons] at hm
    simp at hm
    rcases hm with hm | hm
    · rw [List.all_eq_true] at hind
      have := hind _ hm
      simp [is_nom_space] at this
    · simp at hcr
      exact hcr hm
  | obj ind idx ty inner =>
    simp only [wfBlock, Bool.and_eq_true] at h
    obtain ⟨⟨⟨⟨⟨⟨hind, _⟩, hidx⟩, _⟩, hty⟩, _⟩, hcr⟩ := h
    simp only [Bool.not_eq_true'] at hcr
    intro hm
    simp only [renderBlock, List.mem_append, List.mem_cons] at hm
    simp at hm
    rcases hm with hm | hm | hm | hm
    · rw [List.all_eq_true] at hind
      have := hind _ hm
      simp [is_nom_space] at this
    · rw [List.all_eq_true] at hidx
      have := hidx _ hm
      simp at this
    · rw [List.all_eq_true] at hty
      have := hty _ hm
      simp [Char.isAlpha, Char.isUpper, Char.isLower] at this
    · simp at hcr
      exact hcr hm

theorem terminated_mk {α β : Type} {q : NomParser α} {r : NomParser β} {input m rest : List Char}
    {v : α} {w : β} (hq : q input = some (m, v)) (hr : r m = some (rest, w)) :
    terminated q r input = some (rest, v) := by
  unfold terminated
  rw [hq]
  dsimp only
  rw [hr]

theorem preceded_none_left {α β : Type} {p : NomParser α} {q : NomParser β} {input : List Char}
    (hp : p input = none) : preceded p q input = none := by
  unfold preceded
  rw [hp]

theorem pand_none_left {α β : Type} {p : NomParser α} {q : NomParser β} {input : List Char}
    (hp : p input = none) : pand p q input = none := by
  unfold pand
  rw [hp]

theorem pand_none_right {α β : Type} {p : NomParser α} {q : NomParser β} {input m : List Char}
    {v : α} (hp : p input = some (m, v)) (hq : q m = none) : pand p q input = none := by
  unfold pand
  rw [hp]
  dsimp only
  rw [hq]

theorem palt_some_left {α : Type} {p q : NomParser α} {input : List Char}
    {x : List Char × α} (hp : p input = some x) : palt p q input = some x := by
  unfold palt
  rw [hp]

theorem palt_none_left {α : Type} {p q : NomParser α} {input : List Char}
    (hp : p input = none) : palt p q input = q input := by
  unfold palt
  rw [hp]

theorem alpha_not_nom_space {c : Char} (h : c.isAlpha = true) : is_nom_space c = false := by
  revert h
  unfold is_nom_space
  by_cases h1 : c = ' '
  · subst h1
    decide
  · by_cases h2 : c = '\t'
    · subst h2
      decide
    · intro _
      simp [h1, h2]

theorem alpha_ne_space {c : Char} (h : c.isAlpha = true) : c ≠ ' ' := by
  intro he
  subst he
  simp at h

theorem digit_not_nom_space {c : Char} (h : c.isDigit = true) : is_nom_space c = false := by
  revert h
  unfold is_nom_space
  by_cases h1 : c = ' '
  · subst h1
    decide
  · by_cases h2 : c = '\t'
    · subst h2
      decide
    · intro _
      simp [h1, h2]

/-- no_cr_docOf — a well-formed document contains no `\r`. -/
theorem no_cr_docOf {L : List MsiBlock} (h : ∀ bl ∈ L, wfBlock bl = true) :
    '\r' ∉ docOf L := by
  intro hm
  rcases List.mem_append.mp hm with hm1 | hm1
  · unfold renderBlocks at hm1
    rw [List.mem_join] at hm1
    obtain ⟨l, hl, hml⟩ := hm1
    rw [List.mem_map] at hl
    obtain ⟨bl, hbl, hrender⟩ := hl
    exact no_cr_renderBlock (h bl hbl) (hrender ▸ hml)
  · simp at hm1

/-- take_attribute_block — on a well-formed attribute block followed by
`\r`-free text, `take_attribute` consumes exactly the block and extracts its
content. -/
theorem take_attribute_block {ind c rest : List Char}
    (hwf : wfBlock (MsiBlock.attr ind c) = true) (hrest : '\r' ∉ rest) :
    take_attribute (renderBlock (MsiBlock.attr ind c) ++ rest) = some (rest, c) := by
  simp only [wfBlock, Bool.and_eq_true] at hwf
  obtain ⟨⟨⟨⟨hind, hne⟩, hhead⟩, hnl⟩, hcr⟩ := hwf
  simp only [Bool.not_eq_true'] at hnl hcr
  obtain ⟨c0, cs, hc0⟩ : ∃ c0 cs, c = c0 :: cs := by
    cases c with
    | nil => simp at hne
    | cons a as => exact ⟨a, as, rfl⟩
  have hc0sp : is_nom_space c0 = false := by
    rw [hc0] at hhead
    simpa using hhead
  have hinput : renderBlock (MsiBlock.attr ind c) ++ rest =
      ind ++ ('(' :: 'A' :: ' ' :: (c ++ (')' :: '\n' :: rest))) := by
    simp [renderBlock]
  rw [hinput]
  have hopen : pand space0 (pand (ptag lparenL) (pand (ptag capAL) space1))
      (ind ++ ('(' :: 'A' :: ' ' :: (c ++ (')' :: '\n' :: rest)))) =
      some (c ++ (')' :: '\n' :: rest), (ind, (lparenL, (capAL, [' '])))) := by
    refine pand_mk (space0_append hind ?_) ?_
    · intro cc hcc
      injection hcc with h1
      subst h1
      decide
    · refine pand_mk (ptag_append lparenL _) (pand_mk (ptag_append capAL _) ?_)
      refine space1_cons ?_
      intro cc hcc
      rw [hc0] at hcc
      injection hcc with h1
      subst h1
      exact hc0sp
  have hcrY : '\r' ∉ c ++ (')' :: '\n' :: rest) := by
    intro hm
    rcases List.mem_append.mp hm with hm1 | hm1
    · simp at hcr
      exact hcr hm1
    · simp only [List.mem_cons] at hm1
      rcases hm1 with h1 | h1 | h1
      · exact absurd h1 (by decide)
      · exact absurd h1 (by decide)
      · exact hrest h1
  have hmid : palt (take_until closeCrNl) (take_until closeNl) (c ++ (')' :: '\n' :: rest)) =
      some (')' :: '\n' :: rest, c) := by
    rw [palt_none_left (take_until_no_cr (by decide) hcrY)]
    exact take_until_closeNl (by simp at hnl; simpa using hnl)
  have hterm : pand (ptag rparenL) line_ending (')' :: '\n' :: rest) =
      some (rest, (rparenL, ['\n'])) := by
    refine pand_mk ?_ line_ending_nl
    exact ptag_append rparenL ('\n' :: rest)
  unfold take_attribute delimited
  exact preceded_mk hopen (terminated_mk hmid hterm)

/-- take_attribute_obj_none — `take_attribute` fails on an object block: the
opener requires a literal `A` where the object has its decimal index. -/
theorem take_attribute_obj_none {ind idx ty inner rest : List Char}
    (hwf : wfBlock (MsiBlock.obj ind idx ty inner) = true) :
    take_attribute (renderBlock (MsiBlock.obj ind idx ty inner) ++ rest) = none := by
  simp only [wfBlock, Bool.and_eq_true] at hwf
  obtain ⟨⟨⟨⟨⟨⟨hind, hidxne⟩, hidx⟩, _⟩, _⟩, _⟩, _⟩ := hwf
  obtain ⟨d0, ds, hd0⟩ : ∃ d0 ds, idx = d0 :: ds := by
    cases idx with
    | nil => simp at hidxne
    | cons a as => exact ⟨a, as, rfl⟩
  have hd0dig : d0.isDigit = true := by
    rw [List.all_eq_true] at hidx
    exact hidx d0 (by rw [hd0]; simp)
  have hinput : renderBlock (MsiBlock.obj ind idx ty inner) ++ rest =
      ind ++ ('(' :: (idx ++ (' ' :: (ty ++ ('\n' :: (inner ++
        (' ' :: ' ' :: ')' :: '\n' :: rest))))))) := by
    simp [renderBlock]
  rw [hinput]
  have hAfail : ptag capAL (idx ++ (' ' :: (ty ++ ('\n' :: (inner ++
      (' ' :: ' ' :: ')' :: '\n' :: rest)))))) = none := by
    refine ptag_none ?_
    rw [hd0]
    simp only [List.cons_append, startsWithL, capAL]
    have : d0 ≠ 'A' := by
      intro he
      rw [he] at hd0dig
      simp at hd0dig
    simp [beq_iff_eq]
    intro he
    exact absurd he.symm this
  have hopen : pand space0 (pand (ptag lparenL) (pand (ptag capAL) space1))
      (ind ++ ('(' :: (idx ++ (' ' :: (ty ++ ('\n' :: (inner ++
        (' ' :: ' ' :: ')' :: '\n' :: rest)))))))) = none := by
    refine pand_none_right (space0_append hind ?_) ?_
    · intro cc hcc
      injection hcc with h1
      subst h1
      decide
    · exact pand_none_right (ptag_append lparenL _) (pand_none_left hAfail)
  unfold take_attribute delimited
  exact preceded_none_left hopen

/-- hasPat_content_false — the content of a well-formed object block (type
tag, newline, field lines) contains no early `"  )"` terminator. -/
theorem hasPat_content_false {ty inner : List Char} (hty : ∀ c ∈ ty, c.isAlpha = true)
    (hin : hasPat twoSpClose inner = false) :
    hasPat twoSpClose (ty ++ ('\n' :: inner)) = false := by
  induction ty with
  | nil =>
    simp only [List.nil_append, hasPat, Bool.or_eq_false_iff]
    constructor
    · simp [twoSpClose, startsWithL]
    · exact hin
  | cons t ts ih =>
    have ht : t.isAlpha = true := hty t (by simp)
    simp only [List.cons_append, hasPat, Bool.or_eq_false_iff]
    constructor
    · simp only [twoSpClose, startsWithL]
      simp [beq_iff_eq]
      intro he
      exact absurd he.symm (alpha_ne_space ht)
    · exact ih fun c hc => hty c (by simp [hc])

/-- take_object_block — on a well-formed object block, `take_object`
consumes exactly the block and extracts the type-tag line plus field
lines. -/
theorem take_object_block {ind idx ty inner rest : List Char}
    (hwf : wfBlock (MsiBlock.obj ind idx ty inner) = true) :
    take_object (renderBlock (MsiBlock.obj ind idx ty inner) ++ rest) =
      some (rest, ty ++ ('\n' :: inner)) := by
  simp only [wfBlock, Bool.and_eq_true] at hwf
  obtain ⟨⟨⟨⟨⟨⟨hind, hidxne⟩, hidx⟩, htyne⟩, hty⟩, hpat⟩, _⟩ := hwf
  simp only [Bool.not_eq_true'] at hpat
  obtain ⟨t0, ts, ht0⟩ : ∃ t0 ts, ty = t0 :: ts := by
    cases ty with
    | nil => simp at htyne
    | cons a as => exact ⟨a, as, rfl⟩
  have ht0a : t0.isAlpha = true := by
    rw [List.all_eq_true] at hty
    exact hty t0 (by rw [ht0]; simp)
  have hinput : renderBlock (MsiBlock.obj ind idx ty inner) ++ rest =
      ind ++ ('(' :: (idx ++ (' ' :: ((ty ++ ('\n' :: inner)) ++
        (' ' :: ' ' :: ')' :: ('\n' :: rest)))))) := by
    simp [renderBlock]
  rw [hinput]
  have hopen : pand space0 (pand (ptag lparenL) (pand decimal space1))
      (ind ++ ('(' :: (idx ++ (' ' :: ((ty ++ ('\n' :: inner)) ++
        (' ' :: ' ' :: ')' :: ('\n' :: rest))))))) =
      some ((ty ++ ('\n' :: inner)) ++ (' ' :: ' ' :: ')' :: ('\n' :: rest)),
        (ind, (lparenL, (idx, [' '])))) := by
    refine pand_mk (space0_append hind ?_) ?_
    · intro cc hcc
      injection hcc with h1
      subst h1
      decide
    · refine pand_mk (ptag_append lparenL _) ?_
      refine pand_mk (decimal_append ⟨by simpa using hidxne, by simpa [List.all_eq_true] using hidx⟩ ?_) ?_
      · intro cc hcc
        injection hcc with h1
        subst h1
        decide
      · refine space1_cons ?_
        intro cc hcc
        rw [ht0] at hcc
        simp only [List.cons_append, List.head?_cons] at hcc
        injection hcc with h1
        subst h1
        exact alpha_not_nom_space ht0a
  have hmid : take_until twoSpClose ((ty ++ ('\n' :: inner)) ++
      (' ' :: ' ' :: ')' :: ('\n' :: rest))) =
      some (' ' :: ' ' :: ')' :: ('\n' :: rest), ty ++ ('\n' :: inner)) :=
    take_until_twoSp (hasPat_content_false (by simpa [List.all_eq_true] using hty) hpat)
  have hterm : pand space0 (pand (ptag rparenL) line_ending)
      (' ' :: ' ' :: ')' :: ('\n' :: rest)) = some (rest, ([' ', ' '], (rparenL, ['\n']))) := by
    have hsp : space0 (' ' :: ' ' :: ')' :: ('\n' :: rest)) =
        some (')' :: ('\n' :: rest), [' ', ' ']) := by
      have h2 := @space0_append [' ', ' '] (')' :: ('\n' :: rest)) (by decide) ?_
      · simpa using h2
      · intro cc hcc
        injection hcc with h1
        subst h1
        decide
    exact pand_mk hsp (pand_mk (ptag_append rparenL ('\n' :: rest)) line_ending_nl)
  unfold take_object delimited
  exact preceded_mk hopen (terminated_mk hmid hterm)

/-- get_field_block — on any well-formed block followed by `\r`-free text,
`get_field` consumes exactly the block and extracts its content. -/
theorem get_field_block {bl : MsiBlock} {rest : List Char}
    (hwf : wfBlock bl = true) (hrest : '\r' ∉ rest) :
    get_field (renderBlock bl ++ rest) = some (rest, contentOf bl) := by
  cases bl with
  | attr ind c =>
    unfold get_field
    exact palt_some_left (take_attribute_block hwf hrest)
  | obj ind idx ty inner =>
    unfold get_field
    rw [palt_none_left (take_attribute_obj_none hwf)]
    exact take_object_block hwf

/-- get_field_close — at the scope terminator, field extraction fails and
the loop exhausts. -/
theorem get_field_close (t : List Char) : get_field (')' :: t) = none := by
  have hsp : space0 (')' :: t) = some (')' :: t, []) := by
    have h2 := @space0_append [] (')' :: t) (by decide) ?_
    · simpa using h2
    · intro cc hcc
      injection hcc with h1
      subst h1
      decide
  have hlp : ptag lparenL (')' :: t) = none := by
    refine ptag_none ?_
    simp [lparenL, startsWithL]
  have h1 : take_attribute (')' :: t) = none := by
    unfold take_attribute delimited
    exact preceded_none_left (pand_none_right hsp (pand_none_left hlp))
  have h2 : take_object (')' :: t) = none := by
    unfold take_object delimited
    exact preceded_none_left (pand_none_right hsp (pand_none_left hlp))
  unfold get_field
  rw [palt_none_left h1, h2]

/-- renderBlock_ne_nil — a rendered block is never empty text. -/
theorem renderBlock_ne_nil (bl : MsiBlock) : renderBlock bl ≠ [] := by
  cases bl with
  | attr ind c => simp [renderBlock]
  | obj ind idx ty inner => simp [renderBlock]

theorem docOf_cons (bl : MsiBlock) (L : List MsiBlock) :
    docOf (bl :: L) = renderBlock bl ++ docOf L := by
  simp [docOf, renderBlocks]

/-- analyzeGo_doc — the field loop of `analyze` over a well-formed document
classifies exactly the blocks, in order, stopping at the scope
terminator. -/
theorem analyzeGo_doc : ∀ (L : List MsiBlock) (fuel : ℕ) (b0 : MsiBuckets),
    (∀ bl ∈ L, wfBlock bl = true) → L.length < fuel →
    analyzeGo fuel (docOf L) b0 =
      ([')'], L.foldl (fun b bl => classifyField b (contentOf bl)) b0) := by
  intro L
  induction L with
  | nil =>
    intro fuel b0 _ hfuel
    obtain ⟨n, hn⟩ : ∃ n, fuel = n + 1 := by
      cases fuel with
      | zero => omega
      | succ n => exact ⟨n, rfl⟩
    subst hn
    show analyzeGo (n + 1) [')'] b0 = ([')'], b0)
    unfold analyzeGo
    rw [get_field_close]
  | cons bl L ih =>
    intro fuel b0 hwf hfuel
    obtain ⟨n, hn⟩ : ∃ n, fuel = n + 1 := by
      cases fuel with
      | zero => omega
      | succ n => exact ⟨n, rfl⟩
    subst hn
    rw [docOf_cons]
    have hgf := get_field_block (hwf bl (by simp))
      (@no_cr_docOf L (fun b hb => hwf b (by simp [hb])))
    unfold analyzeGo
    rw [hgf]
    dsimp only
    have hlen : (docOf L).length < (renderBlock bl ++ docOf L).length := by
      rw [List.length_append]
      have := renderBlock_ne_nil bl
      cases h : renderBlock bl with
      | nil => exact absurd h this
      | cons a as => simp [h]
    rw [if_pos hlen]
    rw [List.foldl_cons]
    exact ih n (classifyField b0 (contentOf bl)) (fun b hb => hwf b (by simp [hb]))
      (by simpa using hfuel)

theorem line_ending_none {c0 : Char} {cs : List Char} (h1 : c0 ≠ '\n') (h2 : c0 ≠ '\r') :
    line_ending (c0 :: cs) = none := by
  unfold line_ending
  split
  · next heq => injection heq with ha hb; exact absurd ha h1
  · next heq => injection heq with ha hb; exact absurd ha h2
  · rfl

theorem mem_of_mem_dropWhile {p : Char → Bool} {l : List Char} {c : Char}
    (h : c ∈ l.dropWhile p) : c ∈ l := by
  induction l with
  | nil => simpa using h
  | cons a as ih =>
    rw [List.dropWhile_cons] at h
    by_cases hp : p a = true
    · simp [hp] at h
      exact List.mem_cons_of_mem a (ih h)
    · simp [hp] at h
      simpa using h

theorem alpha1_rest {c r v : List Char} (h : alpha1 c = some (r, v)) :
    r = c.dropWhile Char.isAlpha := by
  simp only [alpha1] at h
  by_cases he : (c.takeWhile Char.isAlpha).isEmpty
  · simp [he] at h
  · simp [he] at h
    exact h.1.symm

/-- get_object_type_attr — on text with no line ending, the object-type
probe fails (so the field is classified as a model attribute). -/
theorem get_object_type_attr {c : List Char} (hn : '\n' ∉ c) (hr : '\r' ∉ c) :
    get_object_type c = none := by
  unfold get_object_type terminated
  cases ha : alpha1 c with
  | none => rfl
  | some p =>
    obtain ⟨r, v⟩ := p
    have hrest := alpha1_rest ha
    have hle : line_ending r = none := by
      cases hr0 : r with
      | nil => rfl
      | cons c0 cs =>
        have hc0 : c0 ∈ c := @mem_of_mem_dropWhile Char.isAlpha c c0
          (by rw [← hrest, hr0]; simp)
        refine line_ending_none ?_ ?_
        · intro he; exact hn (he ▸ hc0)
        · intro he; exact hr (he ▸ hc0)
    dsimp only
    rw [hle]

/-- get_object_type_obj — on an object's content (alphabetic tag line then
field lines), the probe returns the tag and the field lines. -/
theorem get_object_type_obj {ty inner : List Char} (hne : ty ≠ [])
    (hty : ∀ c ∈ ty, c.isAlpha = true) :
    get_object_type (ty ++ ('\n' :: inner)) = some (inner, ty) := by
  unfold get_object_type terminated
  rw [alpha1_append hne hty (fun c hc => by injection hc with h; subst h; decide)]
  dsimp only
  rw [line_ending_nl]

/-- classifyField_attr — a line-ending-free field goes to the attribute
bucket. -/
theorem classifyField_attr {c : List Char} (b : MsiBuckets) (hn : '\n' ∉ c) (hr : '\r' ∉ c) :
    classifyField b c =
      { b with model_attributes := b.model_attributes ++ [c], num_attr := b.num_attr + 1 } := by
  unfold classifyField
  rw [get_object_type_attr hn hr]

/-- classifyField_obj — an object field goes to the atom bucket when tagged
`Atom`, else to the bond bucket. -/
theorem classifyField_obj {ty inner : List Char} (b : MsiBuckets) (hne : ty ≠ [])
    (hty : ∀ c ∈ ty, c.isAlpha = true) :
    classifyField b (ty ++ ('\n' :: inner)) =
      if ty = atomTag then
        { b with atoms := b.atoms ++ [inner], num_atom := b.num_atom + 1 }
      else
        { b with bonds := b.bonds ++ [inner], num_bond := b.num_bond + 1 } := by
  unfold classifyField
  rw [get_object_type_obj hne hty]

/-- foldl_classify — folding `classifyField` over a well-formed document's
field contents appends exactly the three buckets and counts them. -/
theorem foldl_classify : ∀ (L : List MsiBlock) (b0 : MsiBuckets),
    (∀ bl ∈ L, wfBlock bl = true) →
    L.foldl (fun b bl => classifyField b (contentOf bl)) b0 =
      ⟨b0.model_attributes ++ attrsOf L, b0.atoms ++ atomsOf L, b0.bonds ++ bondsOf L,
        b0.num_attr + (attrsOf L).length, b0.num_atom + (atomsOf L).length,
        b0.num_bond + (bondsOf L).length⟩ := by
  intro L
  induction L with
  | nil =>
    intro b0 _
    obtain ⟨ma, at_, bo, na, nat, nb⟩ := b0
    simp [attrsOf, atomsOf, bondsOf]
  | cons bl L ih =>
    intro b0 hwf
    rw [List.foldl_cons, ih _ (fun b hb => hwf b (by simp [hb]))]
    have hbl := hwf bl (by simp)
    cases bl with
    | attr ind c =>
      simp only [wfBlock, Bool.and_eq_true] at hbl
      obtain ⟨⟨⟨⟨h1, h2⟩, h3⟩, h4⟩, h5⟩ := hbl
      have hn : '\n' ∉ c := by simpa using h4
      have hr : '\r' ∉ c := by simpa using h5
      rw [show contentOf (MsiBlock.attr ind c) = c from rfl, classifyField_attr b0 hn hr]
      simp only [attrsOf, atomsOf, bondsOf, List.filterMap_cons]
      simp [List.append_assoc]
      omega
    | obj ind idx ty inner =>
      simp only [wfBlock, Bool.and_eq_true] at hbl
      obtain ⟨⟨⟨⟨⟨⟨g1, g2⟩, g3⟩, g4⟩, g5⟩, g6⟩, g7⟩ := hbl
      have hne : ty ≠ [] := by simpa using g4
      have hty : ∀ c ∈ ty, c.isAlpha = true := by simpa [List.all_eq_true] using g5
      rw [show contentOf (MsiBlock.obj ind idx ty inner) = ty ++ ('\n' :: inner) from rfl,
        classifyField_obj b0 hne hty]
      by_cases hat : ty = atomTag
      · rw [if_pos hat]
        simp only [attrsOf, atomsOf, bondsOf, List.filterMap_cons]
        simp [List.append_assoc, hat]
        omega
      · rw [if_neg hat]
        simp only [attrsOf, atomsOf, bondsOf, List.filterMap_cons]
        simp [List.append_assoc, hat]
        omega

theorem length_le_renderBlocks (L : List MsiBlock) : L.length ≤ (renderBlocks L).length := by
  induction L with
  | nil => simp [renderBlocks]
  | cons bl L ih =>
    have h1 : 1 ≤ (renderBlock bl).length := by
      have := renderBlock_ne_nil bl
      cases h : renderBlock bl with
      | nil => exact absurd h this
      | cons a as => simp
    calc (bl :: L).length = L.length + 1 := by simp
    _ ≤ (renderBlocks L).length + (renderBlock bl).length := by omega
    _ = (renderBlocks (bl :: L)).length := by
        simp [renderBlocks, List.length_append]
        omega

/-- analyze_doc — on a document of well-formed blocks, `analyze` succeeds
and returns exactly the block-order buckets with their counts. -/
theorem analyze_doc {L : List MsiBlock} (hwf : ∀ bl ∈ L, wfBlock bl = true) :
    analyze (docOf L) = some (bucketsOf L) := by
  unfold analyze
  have hfuel : L.length < (docOf L).length + 1 := by
    have := length_le_renderBlocks L
    simp only [docOf, List.length_append]
    omega
  rw [analyzeGo_doc L ((docOf L).length + 1) emptyBuckets hwf hfuel]
  rw [foldl_classify L emptyBuckets hwf]
  simp [bucketsOf, emptyBuckets, model_end, ptag, rparenL, startsWithL]

theorem get_attribute_type_peek {c : List Char} {p : List Char × List Char}
    (h : get_attribute_type c = some p) : p.1 = c := by
  unfold get_attribute_type peek at h
  cases hq : delimited (pand alpha1 space1)
      (precognize (many1 (palt alphanumeric1 (ptag slashL)))) space1 c with
  | none => rw [hq] at h; cases h
  | some q =>
    rw [hq] at h
    dsimp only at h
    injection h with h1
    rw [← h1]

theorem hashInsert_get (t : AttrTable) (k v k' : List Char) :
    hashGet (hashInsert t k v) k' = if k = k' then some v else hashGet t k' := by
  induction t with
  | nil =>
    by_cases hk : k = k' <;> simp [hashInsert, hashGet, hk]
  | cons kv t ih =>
    obtain ⟨k0, v0⟩ := kv
    by_cases h0 : k0 = k
    · subst h0
      by_cases hk : k0 = k' <;> simp [hashInsert, hashGet, hk]
    · by_cases hk2 : k = k' <;> by_cases hk : k0 = k'
      · exact absurd (hk.trans hk2.symm) h0
      · subst hk2
        simp [hashInsert, hashGet, h0, hk, ih]
      · have hk2' : k' ≠ k := fun h => hk2 h.symm
        simp [hashInsert, hashGet, h0, hk2, hk2', hk, ih]
      · have hk2' : k' ≠ k := fun h => hk2 h.symm
        simp [hashInsert, hashGet, h0, hk2, hk2', hk, ih]

theorem getLast_cons_of_ne_nil {α : Type} {l : List α} (h : l ≠ []) (a : α) :
    (a :: l).getLast? = l.getLast? := by
  cases l with
  | nil => exact absurd rfl h
  | cons b bs => simp [List.getLast?_cons_cons]

/-- hashmapGo_char — folding the attribute items into the table succeeds
whenever every item is key-shaped, and a lookup returns the last item filed
under the key (insert overwrites), falling back to the initial table. -/
theorem hashmapGo_char : ∀ (items : List (List Char)) (t0 : AttrTable),
    (∀ it ∈ items, (attrKey it).isSome = true) →
    ∃ t, hashmapGo items t0 = some t ∧
      ∀ k, hashGet t k = (match lastKeyed items k with
        | some v => some v
        | none => hashGet t0 k) := by
  intro items
  induction items with
  | nil =>
    intro t0 _
    exact ⟨t0, rfl, fun k => by simp [lastKeyed]⟩
  | cons it rest ih =>
    intro t0 hkeys
    have hk := hkeys it (by simp)
    obtain ⟨p, hp⟩ : ∃ p, get_attribute_type it = some p := by
      rw [attrKey] at hk
      cases hg : get_attribute_type it with
      | none => rw [hg] at hk; simp at hk
      | some q => exact ⟨q, rfl⟩
    have hp1 : p.1 = it := get_attribute_type_peek hp
    have hak : attrKey it = some p.2 := by simp [attrKey, hp]
    obtain ⟨t, ht, hget⟩ := ih (hashInsert t0 p.2 it)
      (fun x hx => hkeys x (by simp [hx]))
    refine ⟨t, ?_, ?_⟩
    · unfold hashmapGo
      rw [hp]
      obtain ⟨p1, p2⟩ := p
      dsimp only
      dsimp only at hp1
      rw [hp1] at ht ⊢
      exact ht
    · intro k
      rw [hget k]
      by_cases hik : p.2 = k
      · subst hik
        have hfil : List.filter (fun c => attrKey c == some p.2) (it :: rest) =
            it :: List.filter (fun c => attrKey c == some p.2) rest := by
          rw [List.filter_cons]
          simp [hak]
        cases hlk : lastKeyed rest p.2 with
        | some v =>
          have hne : List.filter (fun c => attrKey c == some p.2) rest ≠ [] := by
            intro hnil
            rw [lastKeyed, hnil] at hlk
            cases hlk
          rw [show lastKeyed (it :: rest) p.2 =
              (it :: List.filter (fun c => attrKey c == some p.2) rest).getLast? from by
            rw [lastKeyed, hfil]]
          rw [getLast_cons_of_ne_nil hne it]
          rw [show (List.filter (fun c => attrKey c == some p.2) rest).getLast? =
              lastKeyed rest p.2 from rfl, hlk]
        | none =>
          have hnil : List.filter (fun c => attrKey c == some p.2) rest = [] := by
            have := hlk
            rw [lastKeyed] at this
            exact List.getLast?_eq_none_iff.mp this
          rw [show lastKeyed (it :: rest) p.2 =
              (it :: List.filter (fun c => attrKey c == some p.2) rest).getLast? from by
            rw [lastKeyed, hfil]]
          rw [hnil]
          rw [hashInsert_get]
          simp
      · have hfil : List.filter (fun c => attrKey c == some k) (it :: rest) =
            List.filter (fun c => attrKey c == some k) rest := by
          rw [List.filter_cons]
          simp [hak, hik]
        rw [show lastKeyed (it :: rest) k =
            (List.filter (fun c => attrKey c == some k) rest).getLast? from by
          rw [lastKeyed, hfil]]
        rw [show (List.filter (fun c => attrKey c == some k) rest).getLast? =
            lastKeyed rest k from rfl]
        cases hlk : lastKeyed rest k with
        | some v => rfl
        | none =>
          rw [hashInsert_get]
          simp [hik]

/-- filterKeyed_len_le_one — with pairwise distinct keys, at most one item
is filed under a given key. -/
theorem filterKeyed_len_le_one : ∀ {items : List (List Char)},
    ((items.map attrKey).Nodup) → ∀ k : List Char,
    (items.filter (fun c => attrKey c == some k)).length ≤ 1 := by
  intro items
  induction items with
  | nil => intro _ k; simp
  | cons it rest ih =>
    intro hnd k
    rw [List.map_cons, List.nodup_cons] at hnd
    rw [List.filter_cons]
    by_cases hik : (attrKey it == some k) = true
    · rw [if_pos hik]
      have hik2 : attrKey it = some k := by simpa using hik
      have hnil : List.filter (fun c => attrKey c == some k) rest = [] := by
        rw [List.filter_eq_nil_iff]
        intro x hx hpx
        have hxk : attrKey x = some k := by simpa using hpx
        have hmem : attrKey x ∈ List.map attrKey rest := List.mem_map_of_mem attrKey hx
        rw [hxk, ← hik2] at hmem
        exact hnd.1 hmem
      rw [hnil]
      simp
    · rw [if_neg hik]
      exact ih hnd.2 k

/-- lastKeyed_perm — with pairwise distinct keys, the item filed under a key
does not depend on the order of the items. -/
theorem lastKeyed_perm {items1 items2 : List (List Char)} (hp : items1.Perm items2)
    (hnd : (items1.map attrKey).Nodup) (k : List Char) :
    lastKeyed items1 k = lastKeyed items2 k := by
  have hf : (items1.filter (fun c => attrKey c == some k)).Perm
      (items2.filter (fun c => attrKey c == some k)) := hp.filter _
  have h1 := filterKeyed_len_le_one hnd k
  rw [lastKeyed, lastKeyed]
  cases hfil : items1.filter (fun c => attrKey c == some k) with
  | nil =>
    rw [hfil] at hf
    have : items2.filter (fun c => attrKey c == some k) = [] := by
      have hlen := hf.length_eq
      simpa [List.length_eq_zero] using hlen.symm
    rw [this]
  | cons a as =>
    rw [hfil] at hf h1
    have has : as = [] := by
      simp at h1
      simpa [List.length_eq_zero] using h1
    subst has
    have : items2.filter (fun c => attrKey c == some k) = [a] := by
      exact (List.perm_singleton).mp hf.symm
    rw [this]

theorem classifyAtomItem_eq (cols : AtomColumns) (item : List Char) :
    classifyAtomItem cols item =
      match classifyItem item with
      | AtomItemVal.aclVal n s =>
        { cols with
          atomic_numbers := cols.atomic_numbers ++ [n]
          element_symbols := cols.element_symbols ++ [String.mk s] }
      | AtomItemVal.coordVal v => { cols with xyz_coords := cols.xyz_coords ++ [v] }
      | AtomItemVal.identVal n => { cols with atom_ids := cols.atom_ids ++ [n] }
      | AtomItemVal.skipVal => cols := by
  unfold classifyAtomItem classifyItem
  cases hacl : parse_acl item with
  | some p =>
    obtain ⟨r, nv⟩ := p
    obtain ⟨n, s⟩ := nv
    rfl
  | none =>
    cases hxyz : parse_xyz item with
    | some p =>
      obtain ⟨r, v⟩ := p
      rfl
    | none =>
      cases hid : parse_id item with
      | some p =>
        obtain ⟨r, n⟩ := p
        rfl
      | none => rfl

/-- foldl_items — folding the item classifier over an item list appends the
four filtered columns. -/
theorem foldl_items : ∀ (items : List (List Char)) (cols : AtomColumns),
    items.foldl classifyAtomItem cols =
      ⟨cols.element_symbols ++ items.filterMap (fun it => selSym (classifyItem it)),
        cols.atomic_numbers ++ items.filterMap (fun it => selNum (classifyItem it)),
        cols.xyz_coords ++ items.filterMap (fun it => selXyz (classifyItem it)),
        cols.atom_ids ++ items.filterMap (fun it => selId (classifyItem it))⟩ := by
  intro items
  induction items with
  | nil =>
    intro cols
    obtain ⟨es, an, xyz, ids⟩ := cols
    simp
  | cons it rest ih =>
    intro cols
    rw [List.foldl_cons, ih, classifyAtomItem_eq]
    cases hc : classifyItem it with
    | aclVal n s =>
      simp [List.filterMap_cons, hc, selSym, selNum, selXyz, selId, List.append_assoc]
    | coordVal v =>
      simp [List.filterMap_cons, hc, selSym, selNum, selXyz, selId, List.append_assoc]
    | identVal n =>
      simp [List.filterMap_cons, hc, selSym, selNum, selXyz, selId, List.append_assoc]
    | skipVal =>
      simp [List.filterMap_cons, hc, selSym, selNum, selXyz, selId]

theorem foldl_block (a : List Char) (cols : AtomColumns) :
    (atomFieldItems a).foldl classifyAtomItem cols =
      ⟨cols.element_symbols ++ symsOf a, cols.atomic_numbers ++ numsOf a,
        cols.xyz_coords ++ xyzsOf a, cols.atom_ids ++ idsOf a⟩ := by
  rw [foldl_items]
  rfl

/-- foldl_blocks — folding the whole atom bucket accumulates the per-block
columns in bucket order. -/
theorem foldl_blocks : ∀ (B : List (List Char)) (cols : AtomColumns),
    B.foldl (fun cols atom_fields => (atomFieldItems atom_fields).foldl classifyAtomItem cols)
        cols =
      ⟨cols.element_symbols ++ (B.map symsOf).flatten,
        cols.atomic_numbers ++ (B.map numsOf).flatten,
        cols.xyz_coords ++ (B.map xyzsOf).flatten,
        cols.atom_ids ++ (B.map idsOf).flatten⟩ := by
  intro B
  induction B with
  | nil =>
    intro cols
    obtain ⟨es, an, xyz, ids⟩ := cols
    simp
  | cons a B ih =>
    intro cols
    rw [List.foldl_cons, foldl_block, ih]
    simp [List.append_assoc]

theorem eq_headD_of_len_one {α : Type} {l : List α} (h : l.length = 1) (d : α) :
    l = [l.headD d] := by
  cases l with
  | nil => simp at h
  | cons x xs =>
    cases xs with
    | nil => rfl
    | cons y ys => simp at h

theorem flatten_singleton_map {α : Type} (g : List Char → List α) (d : α) :
    ∀ {B : List (List Char)}, (∀ a ∈ B, (g a).length = 1) →
    (B.map g).flatten = B.map (fun a => (g a).headD d) := by
  intro B
  induction B with
  | nil => intro _; rfl
  | cons a B ih =>
    intro h
    rw [List.map_cons, List.flatten_cons, ih (fun x hx => h x (by simp [hx])), List.map_cons]
    have h1 := eq_headD_of_len_one (h a (by simp)) d
    nth_rewrite 1 [h1]
    rfl

/-- parse_atoms_doc — on an atom bucket whose every block contributes exactly
one entry per column, `parse_atoms` succeeds with the per-block rows in
bucket order (every builder step accepts: each column's length is the bucket
length). -/
theorem parse_atoms_doc {B : List (List Char)} (h : ∀ a ∈ B, atomBlockOneEach a = true) :
    parse_atoms B B.length = some
      ⟨B.map (fun a => (symsOf a).headD ""),
        B.map (fun a => (numsOf a).headD 0),
        B.map (fun a => (xyzsOf a).headD ⟨0, 0, 0⟩),
        List.replicate B.length none,
        B.map (fun a => (idsOf a).headD 0),
        B.length⟩ := by
  have hone : ∀ a ∈ B, (symsOf a).length = 1 ∧ (numsOf a).length = 1 ∧
      (xyzsOf a).length = 1 ∧ (idsOf a).length = 1 := by
    intro a ha
    have h2 := h a ha
    simp only [atomBlockOneEach, Bool.and_eq_true, beq_iff_eq] at h2
    exact ⟨h2.1.1.1, h2.1.1.2, h2.1.2, h2.2⟩
  have hsy := flatten_singleton_map symsOf "" (fun a ha => (hone a ha).1)
  have hnu := flatten_singleton_map numsOf 0 (fun a ha => (hone a ha).2.1)
  have hxy := flatten_singleton_map xyzsOf ⟨0, 0, 0⟩ (fun a ha => (hone a ha).2.2.1)
  have hid := flatten_singleton_map idsOf 0 (fun a ha => (hone a ha).2.2.2)
  unfold parse_atoms
  rw [foldl_blocks, hsy, hnu, hxy, hid]
  simp [emptyColumns, AtomCollectionBuilder.new, AtomCollectionBuilder.with_atom_ids,
    AtomCollectionBuilder.with_element_symbols, AtomCollectionBuilder.with_atomic_nums,
    AtomCollectionBuilder.with_xyz_coords, AtomCollectionBuilder.with_fractional_xyz,
    AtomCollectionBuilder.finish, AtomCollectionBuilder.build]

/-- collectionRows_of_maps — zipping four equally indexed mapped columns
gives the mapped row list. -/
theorem collectionRows_of_maps (B : List (List Char)) (R : List (Option Vec3)) (n : ℕ) :
    collectionRows
      ⟨B.map (fun a => (symsOf a).headD ""),
        B.map (fun a => (numsOf a).headD 0),
        B.map (fun a => (xyzsOf a).headD ⟨0, 0, 0⟩),
        R,
        B.map (fun a => (idsOf a).headD 0),
        n⟩ = B.map rowOfBlock := by
  unfold collectionRows
  dsimp only
  rw [List.zip_map', List.zip_map', List.zip_map']
  rfl

/-- C4 — the claim says that for every well-formed MSI document and every
permutation of its attribute, atom and bond blocks, parsing the permuted
document yields the same semantic model as the canonical ordering: the same
attribute table (every key looks up the same value), the same counters, the
same multiset of atom rows (species, atomic number, coordinates, id) and the
same bond count.  Over the embedded analyzer (`analyze`, the order-agnostic
`get_field` loop of state_machine/mod.rs lines 217–259) and atom-table
construction (`parse_atoms`, lines 295–332), both block orders parse
successfully; the attribute tables agree on every key, the three counters
agree, the bond buckets are permutations of each other, and the atom tables'
row lists are permutations of each other — the parser assumes neither that
atoms are contiguous nor that any attribute precedes the atom list. -/
theorem c4_parse_order_independent (L1 L2 : List MsiBlock) (hperm : L1.Perm L2)
    (hwf : WfDocB L1 = true) :
    ∃ b1 b2 t1 t2 c1 c2,
      analyze (docOf L1) = some b1 ∧ analyze (docOf L2) = some b2 ∧
      hashmap_attrs b1.model_attributes = some t1 ∧
      hashmap_attrs b2.model_attributes = some t2 ∧
      (∀ k, hashGet t1 k = hashGet t2 k) ∧
      b1.num_attr = b2.num_attr ∧ b1.num_atom = b2.num_atom ∧ b1.num_bond = b2.num_bond ∧
      b1.bonds.Perm b2.bonds ∧
      parse_atoms b1.atoms b1.num_atom = some c1 ∧
      parse_atoms b2.atoms b2.num_atom = some c2 ∧
      (collectionRows c1).Perm (collectionRows c2) := by
  simp only [WfDocB, Bool.and_eq_true] at hwf
  obtain ⟨⟨⟨hall1, hkeys1⟩, hnd1⟩, hone1⟩ := hwf
  have hall1' : ∀ bl ∈ L1, wfBlock bl = true := by
    simpa [List.all_eq_true] using hall1
  have hall2' : ∀ bl ∈ L2, wfBlock bl = true := fun bl hb =>
    hall1' bl (hperm.mem_iff.mpr hb)
  have hpa : (attrsOf L1).Perm (attrsOf L2) := hperm.filterMap _
  have hpat : (atomsOf L1).Perm (atomsOf L2) := hperm.filterMap _
  have hpb : (bondsOf L1).Perm (bondsOf L2) := hperm.filterMap _
  have hkeys1' : ∀ it ∈ attrsOf L1, (attrKey it).isSome = true := by
    simpa [List.all_eq_true] using hkeys1
  have hkeys2' : ∀ it ∈ attrsOf L2, (attrKey it).isSome = true := fun it hi =>
    hkeys1' it (hpa.mem_iff.mpr hi)
  obtain ⟨t1, ht1, hg1⟩ := hashmapGo_char (attrsOf L1) [] hkeys1'
  obtain ⟨t2, ht2, hg2⟩ := hashmapGo_char (attrsOf L2) [] hkeys2'
  have hnd1' : ((attrsOf L1).map attrKey).Nodup := of_decide_eq_true hnd1
  have hget : ∀ k, hashGet t1 k = hashGet t2 k := by
    intro k
    rw [hg1 k, hg2 k, lastKeyed_perm hpa hnd1' k]
  have hone1' : ∀ a ∈ atomsOf L1, atomBlockOneEach a = true := by
    simpa [List.all_eq_true] using hone1
  have hone2' : ∀ a ∈ atomsOf L2, atomBlockOneEach a = true := fun a ha =>
    hone1' a (hpat.mem_iff.mpr ha)
  have hc1 := parse_atoms_doc hone1'
  have hc2 := parse_atoms_doc hone2'
  refine ⟨bucketsOf L1, bucketsOf L2, t1, t2,
    ⟨(atomsOf L1).map (fun a => (symsOf a).headD ""),
      (atomsOf L1).map (fun a => (numsOf a).headD 0),
      (atomsOf L1).map (fun a => (xyzsOf a).headD ⟨0, 0, 0⟩),
      List.replicate (atomsOf L1).length none,
      (atomsOf L1).map (fun a => (idsOf a).headD 0),
      (atomsOf L1).length⟩,
    ⟨(atomsOf L2).map (fun a => (symsOf a).headD ""),
      (atomsOf L2).map (fun a => (numsOf a).headD 0),
      (atomsOf L2).map (fun a => (xyzsOf a).headD ⟨0, 0, 0⟩),
      List.replicate (atomsOf L2).length none,
      (atomsOf L2).map (fun a => (idsOf a).headD 0),
      (atomsOf L2).length⟩,
    analyze_doc hall1', analyze_doc hall2', ht1, ht2, hget,
    hpa.length_eq, hpat.length_eq, hpb.length_eq, hpb, hc1, hc2, ?_⟩
  rw [collectionRows_of_maps, collectionRows_of_maps]
  exact hpat.map rowOfBlock

/-- C4 witness — the theorem applied to a concrete three-block document
(attribute, atom, bond) and the interleaving in which the atom block comes
first. -/
theorem c4_parse_order_independent_witness :
    ∃ b1 b2 t1 t2 c1 c2,
      analyze (docOf c4DocA) = some b1 ∧ analyze (docOf c4DocB) = some b2 ∧
      hashmap_attrs b1.model_attributes = some t1 ∧
      hashmap_attrs b2.model_attributes = some t2 ∧
      (∀ k, hashGet t1 k = hashGet t2 k) ∧
      b1.num_attr = b2.num_attr ∧ b1.num_atom = b2.num_atom ∧ b1.num_bond = b2.num_bond ∧
      b1.bonds.Perm b2.bonds ∧
      parse_atoms b1.atoms b1.num_atom = some c1 ∧
      parse_atoms b2.atoms b2.num_atom = some c2 ∧
      (collectionRows c1).Perm (collectionRows c2) :=
  c4_parse_order_independent c4DocA c4DocB (by decide) (by decide)

end CastepModelCore
